import Mathlib

/-!
Verification of the patch-based undo/redo command engine in
`src/store/command.ts`.

The engine-specific code (`patchToOperation`, `recordOperations`,
`createCommandMutation`, the `UNDO` / `REDO` / `CLEAR_COMMANDS` mutations and
the `CAN_UNDO` / `CAN_REDO` getters) is embedded directly from the source.
The two external libraries it calls — immer's `produceWithPatches` (the Diff
Recorder) and rfc6902's `applyPatch` (the Patch Applier) — are not part of the
repository, so they are modelled from the spec (sections 4.1 and 4.2); those
definitions carry a `Modelled from the spec:` doc comment.

The state tree is a JSON-like value.  JavaScript objects are unordered string
maps; we represent them canonically as association lists with strictly sorted
keys (`canonB`), which is the representation invariant of the embedding, not a
restriction of the spec.  The two command stacks are kept alongside the data
tree in `UndoRedoState`, mirroring the source's `S extends UndoRedoState`;
recipes mutate the data tree.
-/

namespace Vox

/-- JSON-like values: the arbitrary nested mapping/sequence state tree of the
spec (section 3). -/
inductive JValue where
  | null
  | bool (b : Bool)
  | num (n : Int)
  | str (s : String)
  | arr (items : List JValue)
  | obj (fields : List (String × JValue))

mutual
/-- Deep structural equality of values (spec 4.1: "Equality for diffing is
structural (deep value equality)"). -/
def jeq : JValue → JValue → Bool
  | .null, .null => true
  | .bool a, .bool b => a == b
  | .num a, .num b => a == b
  | .str a, .str b => a == b
  | .arr xs, .arr ys => jeqList xs ys
  | .obj fs, .obj gs => jeqFields fs gs
  | _, _ => false
termination_by a b => sizeOf a + sizeOf b

def jeqList : List JValue → List JValue → Bool
  | [], [] => true
  | x :: xs, y :: ys => jeq x y && jeqList xs ys
  | _, _ => false
termination_by a b => sizeOf a + sizeOf b

def jeqFields : List (String × JValue) → List (String × JValue) → Bool
  | [], [] => true
  | (k, v) :: fs, (k', v') :: gs => k == k' && jeq v v' && jeqFields fs gs
  | _, _ => false
termination_by a b => sizeOf a + sizeOf b
end

/-- Lookup of an object field (JS property read). -/
def getKey : List (String × JValue) → String → Option JValue
  | [], _ => none
  | (k', v') :: fs, k => if k = k' then some v' else getKey fs k

/-- Write of an object field (JS property write).  An existing key is
overwritten in place; a fresh key is inserted at its sorted position, keeping
the canonical representation of the unordered JS object. -/
def setKey : List (String × JValue) → String → JValue → List (String × JValue)
  | [], k, v => [(k, v)]
  | (k', v') :: fs, k, v =>
    if k = k' then (k, v) :: fs
    else if k < k' then (k, v) :: (k', v') :: fs
    else (k', v') :: setKey fs k v

/-- Deletion of an object field (JS `delete`). -/
def removeKey : List (String × JValue) → String → List (String × JValue)
  | [], _ => []
  | (k', v') :: fs, k => if k = k' then fs else (k', v') :: removeKey fs k

/-- Insertion into an array at an index (JS `splice(i, 0, v)`); callers guard
`i ≤ length`. -/
def insAt : Nat → JValue → List JValue → List JValue
  | 0, v, xs => v :: xs
  | _+1, v, [] => [v]
  | n+1, v, x :: xs => x :: insAt n v xs

/-- Removal from an array at an index (JS `splice(i, 1)`); callers guard
`i < length`. -/
def removeAtL : Nat → List JValue → List JValue
  | _, [] => []
  | 0, _ :: xs => xs
  | n+1, x :: xs => x :: removeAtL n xs

/-- A path segment of an immer patch: a string key or an array index. -/
inductive Seg where
  | key (k : String)
  | idx (i : Nat)
deriving DecidableEq, Repr

/-- The operation kinds immer patches carry. -/
inductive POp where
  | add
  | remove
  | replace
deriving DecidableEq, Repr

def POp.toStr : POp → String
  | .add => "add"
  | .remove => "remove"
  | .replace => "replace"

/-- An immer `Patch`: `{op, path, value?}` with a structured path.  Remove
patches carry no value (`none`). -/
structure Patch where
  op : POp
  path : List Seg
  value : Option JValue := none

/-- An rfc6902 `Operation`: `{op, path, value?, from?}` with a JSON-pointer
string path.  `fromPath` embeds the JSON field named `from` (a Lean keyword). -/
structure Operation where
  op : String
  path : String
  value : Option JValue
  fromPath : Option String

/-- Decimal digit to character, `48 = '0'`. -/
def digitChar (d : Nat) : Char := Char.ofNat (48 + d)

/-- Decimal rendering of a natural number (JS number-to-string for the array
indices appearing in immer paths). -/
def natChars (n : Nat) : List Char :=
  if _h : n < 10 then [digitChar n]
  else natChars (n / 10) ++ [digitChar (n % 10)]
decreasing_by exact Nat.div_lt_self (by omega) (by omega)

def renderNat (n : Nat) : String := ⟨natChars n⟩

/-- The string a path segment contributes to `patch.path.join("/")`. -/
def segStr : Seg → String
  | .key k => k
  | .idx i => renderNat i

/-- JS `Array.prototype.join("/")`, written recursively. -/
def joinSlash : List String → String
  | [] => ""
  | [t] => t
  | t :: ts => t ++ "/" ++ joinSlash ts

/-- The source's template literal: `` `/${patch.path.join("/")}` ``.  No RFC
6901 escaping is applied to the segments. -/
def pathToString (segs : List Seg) : String := "/" ++ joinSlash (segs.map segStr)

/-- Embedded from `src/store/command.ts` (`patchToOperation`): converts an
immer patch to an rfc6902 operation, copying `op` and `value` verbatim,
joining the path with slashes, and never emitting a `from` field. -/
def patchToOperation (patch : Patch) : Operation :=
  { op := patch.op.toStr
    path := pathToString patch.path
    value := patch.value
    fromPath := none }

/-- JS `String.prototype.split("/")` on the character list; `""` splits to
`[""]`. -/
def splitSlash : List Char → List (List Char)
  | [] => [[]]
  | c :: rest =>
    if c = '/' then [] :: splitSlash rest
    else
      match splitSlash rest with
      | [] => [[c]]
      | t :: ts => (c :: t) :: ts

/-- RFC 6901 unescaping, first pass: `~1` becomes `/`. -/
def replTilde1 : List Char → List Char
  | [] => []
  | '~' :: '1' :: rest => '/' :: replTilde1 rest
  | c :: rest => c :: replTilde1 rest

/-- RFC 6901 unescaping, second pass: `~0` becomes `~`. -/
def replTilde0 : List Char → List Char
  | [] => []
  | '~' :: '0' :: rest => '~' :: replTilde0 rest
  | c :: rest => c :: replTilde0 rest

def unescapeTok (cs : List Char) : List Char := replTilde0 (replTilde1 cs)

/-- Modelled from the spec: rfc6902's pointer parsing (`Pointer.fromJSON`),
which the Patch Applier of section 4.2 uses to address "a sequence of
keys/indices".  Splits on `/`, requires a leading empty token, unescapes `~1`
then `~0`. -/
def parsePointer (s : String) : Option (List String) :=
  match splitSlash s.data with
  | [] :: toks => some (toks.map fun cs => String.mk (unescapeTok cs))
  | _ => none

def isDigitC (c : Char) : Bool := 48 ≤ c.toNat && c.toNat ≤ 57

/-- Parsing of an array-index token (JS `parseInt` restricted to the decimal
tokens the engine emits). -/
def parseNatTok (t : String) : Option Nat :=
  if !t.data.isEmpty && t.data.all isDigitC then
    some (t.data.foldl (fun a c => a * 10 + (c.toNat - 48)) 0)
  else none

/-- Add a child at one structured segment: spec 4.2 `Add` (insert in arrays,
shifting; overwrite or create object fields). -/
def addChildS (parent : JValue) (s : Seg) (w : JValue) : Option JValue :=
  match parent, s with
  | .obj fs, .key k => some (.obj (setKey fs k w))
  | .arr xs, .idx i => if i ≤ xs.length then some (.arr (insAt i w xs)) else none
  | _, _ => none

/-- Remove a child at one structured segment: spec 4.2 `Remove` (the path must
currently exist). -/
def removeChildS (parent : JValue) (s : Seg) : Option JValue :=
  match parent, s with
  | .obj fs, .key k =>
    match getKey fs k with
    | some _ => some (.obj (removeKey fs k))
    | none => none
  | .arr xs, .idx i => if i < xs.length then some (.arr (removeAtL i xs)) else none
  | _, _ => none

/-- Read one structured segment. -/
def getSeg (v : JValue) (s : Seg) : Option JValue :=
  match v, s with
  | .obj fs, .key k => getKey fs k
  | .arr xs, .idx i => xs[i]?
  | _, _ => none

/-- Read at a structured path. -/
def getAt : JValue → List Seg → Option JValue
  | v, [] => some v
  | v, s :: p => (getSeg v s).bind (getAt · p)

/-- Rebuild the tree after acting on the value at a structured path; fails if
the path does not exist or a segment kind mismatches the node. -/
def modSegs : JValue → List Seg → (JValue → Option JValue) → Option JValue
  | v, [], act => act v
  | v, s :: p, act =>
    match v, s with
    | .obj fs, .key k =>
      (getKey fs k).bind fun c => (modSegs c p act).map fun c' => .obj (setKey fs k c')
    | .arr xs, .idx i =>
      (xs[i]?).bind fun c => (modSegs c p act).map fun c' => .arr (xs.set i c')
    | _, _ => none

/-- Overwrite the value at a structured path. -/
def updAt (v : JValue) (p : List Seg) (w : JValue) : Option JValue :=
  modSegs v p fun _ => some w

/-- Structured-path semantics of one recorded patch (the three kinds immer
emits), used as the reference the string-level applier is compared with. -/
def applyPatchS (v : JValue) (pt : Patch) : Option JValue :=
  match pt.op with
  | .replace => pt.value.bind fun w => modSegs v pt.path fun _ => some w
  | .add =>
    pt.value.bind fun w =>
      match pt.path.getLast? with
      | none => none
      | some s => modSegs v pt.path.dropLast fun parent => addChildS parent s w
  | .remove =>
    match pt.path.getLast? with
    | none => none
    | some s => modSegs v pt.path.dropLast fun parent => removeChildS parent s

def applyPatchesS : JValue → List Patch → Option JValue
  | v, [] => some v
  | v, pt :: rest => (applyPatchS v pt).bind (applyPatchesS · rest)

/-- Rebuild the tree after acting on the value at a token path; array tokens
are parsed as decimal indices, object tokens looked up as keys. -/
def modToks : JValue → List String → (JValue → Option JValue) → Option JValue
  | v, [], act => act v
  | v, t :: ts, act =>
    match v with
    | .obj fs =>
      (getKey fs t).bind fun c => (modToks c ts act).map fun c' => .obj (setKey fs t c')
    | .arr xs =>
      (parseNatTok t).bind fun i =>
        (xs[i]?).bind fun c => (modToks c ts act).map fun c' => .arr (xs.set i c')
    | _ => none

/-- Read one token. -/
def getTok (v : JValue) (t : String) : Option JValue :=
  match v with
  | .obj fs => getKey fs t
  | .arr xs => (parseNatTok t).bind fun i => xs[i]?
  | _ => none

/-- Read at a token path. -/
def getToks : JValue → List String → Option JValue
  | v, [] => some v
  | v, t :: ts => (getTok v t).bind (getToks · ts)

/-- Token-level `Add` at the final segment; `"-"` appends to arrays. -/
def addChildT (parent : JValue) (t : String) (w : JValue) : Option JValue :=
  match parent with
  | .obj fs => some (.obj (setKey fs t w))
  | .arr xs =>
    if t = "-" then some (.arr (xs ++ [w]))
    else (parseNatTok t).bind fun i =>
      if i ≤ xs.length then some (.arr (insAt i w xs)) else none
  | _ => none

/-- Token-level `Remove` at the final segment. -/
def removeChildT (parent : JValue) (t : String) : Option JValue :=
  match parent with
  | .obj fs =>
    match getKey fs t with
    | some _ => some (.obj (removeKey fs t))
    | none => none
  | .arr xs =>
    (parseNatTok t).bind fun i =>
      if i < xs.length then some (.arr (removeAtL i xs)) else none
  | _ => none

/-- Failure of a single operation: missing path, failed test, or a malformed
operation. -/
inductive ApplyError where
  | missing
  | test
  | invalid
deriving DecidableEq, Repr

def ofOpt : Option JValue → Except ApplyError JValue
  | some v => .ok v
  | none => .error .missing

/-- Modelled from the spec: rfc6902's per-operation application (the Patch
Applier of section 4.2).  `Add` inserts (with `"-"` appending), `Remove` and
`Replace` require the path to exist, `Move`/`Copy` act through `from`, and
`Test` asserts deep equality.  Operations address the tree through the parsed
JSON-pointer string. -/
def applyOperation (v : JValue) (o : Operation) : Except ApplyError JValue :=
  match parsePointer o.path with
  | none => .error .invalid
  | some ts =>
    match o.op with
    | "add" =>
      match o.value with
      | none => .error .invalid
      | some w =>
        match ts.getLast? with
        | none => .error .missing
        | some last => ofOpt (modToks v ts.dropLast fun parent => addChildT parent last w)
    | "remove" =>
      match ts.getLast? with
      | none => .error .missing
      | some last => ofOpt (modToks v ts.dropLast fun parent => removeChildT parent last)
    | "replace" =>
      match o.value with
      | none => .error .invalid
      | some w => ofOpt (modToks v ts fun _ => some w)
    | "test" =>
      match o.value with
      | none => .error .invalid
      | some w =>
        match getToks v ts with
        | some cur => if jeq cur w then .ok v else .error .test
        | none => .error .missing
    | "move" =>
      match o.fromPath with
      | none => .error .invalid
      | some fp =>
        match parsePointer fp with
        | none => .error .invalid
        | some fts =>
          match getToks v fts, fts.getLast? with
          | some mv, some flast =>
            match modToks v fts.dropLast (fun parent => removeChildT parent flast) with
            | some v1 =>
              match ts.getLast? with
              | none => .error .missing
              | some last => ofOpt (modToks v1 ts.dropLast fun parent => addChildT parent last mv)
            | none => .error .missing
          | _, _ => .error .missing
    | "copy" =>
      match o.fromPath with
      | none => .error .invalid
      | some fp =>
        match parsePointer fp with
        | none => .error .invalid
        | some fts =>
          match getToks v fts with
          | some mv =>
            match ts.getLast? with
            | none => .error .missing
            | some last => ofOpt (modToks v ts.dropLast fun parent => addChildT parent last mv)
          | none => .error .missing
    | _ => .error .invalid

/-- Modelled from the spec: rfc6902's `applyPatch`.  Operations are applied in
order against the evolving document; a failing operation leaves the document
unchanged and is reported in the per-operation result list, which the engine's
callers ignore. -/
def applyPatch : JValue → List Operation → JValue × List (Option ApplyError)
  | v, [] => (v, [])
  | v, o :: rest =>
    match applyOperation v o with
    | .ok v' =>
      let r := applyPatch v' rest
      (r.1, none :: r.2)
    | .error e =>
      let r := applyPatch v rest
      (r.1, some e :: r.2)

/-- Forward patches for the elements appended past the base length, ascending
indices. -/
def addsFrom (p : List Seg) : Nat → List JValue → List Patch
  | _, [] => []
  | m, w :: ws => ⟨.add, p ++ [.idx m], some w⟩ :: addsFrom p (m + 1) ws

/-- Removal patches for the `cnt` trailing elements above `lo`, descending
indices so earlier removals never shift a later target (spec 4.1). -/
def remsDesc (p : List Seg) (lo : Nat) : Nat → List Patch
  | 0 => []
  | c + 1 => ⟨.remove, p ++ [.idx (lo + c)], none⟩ :: remsDesc p lo c

mutual
/-- Modelled from the spec: the Diff Recorder's structural diff (section 4.1,
immer's `produceWithPatches`).  Produces the ordered forward script and the
ordered inverse script from the same pass: deep structural equality yields
nothing; arrays are compared index-wise with additions/removals for a length
change; objects are compared key-wise with `Add`/`Remove` for key set changes;
any other difference is a `Replace` carrying the post- (forward) and pre-
(inverse) values. -/
def diffV (p : List Seg) (base modified : JValue) : List Patch × List Patch :=
  if jeq base modified then ([], [])
  else
    match base, modified with
    | .arr xs, .arr ys =>
      let pair := diffList p 0 xs ys
      if xs.length < ys.length then
        (pair.1 ++ addsFrom p xs.length (ys.drop xs.length),
         pair.2 ++ remsDesc p xs.length (ys.length - xs.length))
      else
        (pair.1 ++ remsDesc p ys.length (xs.length - ys.length),
         pair.2 ++ addsFrom p ys.length (xs.drop ys.length))
    | .obj fs, .obj gs => diffObj p fs gs
    | b, m => ([⟨.replace, p, some m⟩], [⟨.replace, p, some b⟩])
termination_by sizeOf base + sizeOf modified

/-- Index-wise diff of the common prefix of two arrays. -/
def diffList (p : List Seg) (i : Nat) : List JValue → List JValue → List Patch × List Patch
  | x :: xs, y :: ys =>
    let e := diffV (p ++ [.idx i]) x y
    let r := diffList p (i + 1) xs ys
    (e.1 ++ r.1, e.2 ++ r.2)
  | _, _ => ([], [])
termination_by xs ys => sizeOf xs + sizeOf ys

/-- Key-wise diff of two canonically sorted objects. -/
def diffObj (p : List Seg) : List (String × JValue) → List (String × JValue) → List Patch × List Patch
  | [], [] => ([], [])
  | [], (k, v) :: gs =>
    let r := diffObj p [] gs
    (⟨.add, p ++ [.key k], some v⟩ :: r.1, ⟨.remove, p ++ [.key k], none⟩ :: r.2)
  | (k, v) :: fs, [] =>
    let r := diffObj p fs []
    (⟨.remove, p ++ [.key k], none⟩ :: r.1, ⟨.add, p ++ [.key k], some v⟩ :: r.2)
  | (k, v) :: fs, (k', v') :: gs =>
    if k = k' then
      let e := diffV (p ++ [.key k]) v v'
      let r := diffObj p fs gs
      (e.1 ++ r.1, e.2 ++ r.2)
    else if k < k' then
      let r := diffObj p fs ((k', v') :: gs)
      (⟨.remove, p ++ [.key k], none⟩ :: r.1, ⟨.add, p ++ [.key k], some v⟩ :: r.2)
    else
      let r := diffObj p ((k, v) :: fs) gs
      (⟨.add, p ++ [.key k'], some v'⟩ :: r.1, ⟨.remove, p ++ [.key k'], none⟩ :: r.2)
termination_by fs gs => sizeOf fs + sizeOf gs
end

/-- Embedded from `src/store/command.ts`: the `Command` type (note the source's
singular field names). -/
structure Command where
  doOperation : List Operation
  undoOperation : List Operation

/-- The source's `UndoRedoState` together with the data tree the recipes
mutate (`S extends UndoRedoState`). -/
structure UndoRedoState where
  data : JValue
  undoCommands : List Command
  redoCommands : List Command

/-- Embedded from `src/store/command.ts` (`recordOperations`): runs the recipe
through the Diff Recorder and converts both patch scripts with
`patchToOperation`.  A recipe failure propagates and produces no command. -/
def recordOperations {P : Type} (recipe : JValue → P → Except String JValue)
    (state : JValue) (payload : P) : Except String Command :=
  (recipe state payload).map fun result =>
    { doOperation := (diffV [] state result).1.map patchToOperation
      undoOperation := (diffV [] state result).2.map patchToOperation }

/-- Embedded from `src/store/command.ts` (`createCommandMutation`): records a
command, applies its forward script to the live state, pushes it onto the undo
stack and empties the redo stack. -/
def createCommandMutation {P : Type} (payloadRecipe : JValue → P → Except String JValue)
    (state : UndoRedoState) (payload : P) : Except String UndoRedoState :=
  (recordOperations payloadRecipe state.data payload).map fun command =>
    { data := (applyPatch state.data command.doOperation).1
      undoCommands := state.undoCommands ++ [command]
      redoCommands := [] }

/-- Embedded from `src/store/command.ts` (mutation `UNDO`): pops the last undo
command (no-op when empty), pushes it onto the redo stack and applies its
inverse script; the applier's per-operation results are discarded. -/
def UNDO (state : UndoRedoState) : UndoRedoState :=
  match state.undoCommands.getLast? with
  | none => state
  | some command =>
    { data := (applyPatch state.data command.undoOperation).1
      undoCommands := state.undoCommands.dropLast
      redoCommands := state.redoCommands ++ [command] }

/-- Embedded from `src/store/command.ts` (mutation `REDO`): symmetric to
`UNDO` with the forward script. -/
def REDO (state : UndoRedoState) : UndoRedoState :=
  match state.redoCommands.getLast? with
  | none => state
  | some command =>
    { data := (applyPatch state.data command.doOperation).1
      undoCommands := state.undoCommands ++ [command]
      redoCommands := state.redoCommands.dropLast }

/-- Embedded from `src/store/command.ts` (mutation `CLEAR_COMMANDS`): empties
both stacks (`splice(0)`), leaving the rest of the state untouched. -/
def CLEAR_COMMANDS (state : UndoRedoState) : UndoRedoState :=
  { data := state.data, undoCommands := [], redoCommands := [] }

/-- Embedded getter `CAN_UNDO`. -/
def CAN_UNDO (state : UndoRedoState) : Bool :=
  decide (state.undoCommands.length > 0)

/-- Embedded getter `CAN_REDO`. -/
def CAN_REDO (state : UndoRedoState) : Bool :=
  decide (state.redoCommands.length > 0)

/-- Strictly sorted keys, the canonical representation of a JS object. -/
def chainSortedB : List (String × JValue) → Bool
  | [] => true
  | [_] => true
  | a :: b :: t => decide (a.1 < b.1) && chainSortedB (b :: t)

mutual
/-- Representation invariant of the embedding: every object's association list
is strictly sorted by key. -/
def canonB : JValue → Bool
  | .obj fs => chainSortedB fs && canonFields fs
  | .arr xs => canonItems xs
  | _ => true
def canonItems : List JValue → Bool
  | [] => true
  | x :: xs => canonB x && canonItems xs
def canonFields : List (String × JValue) → Bool
  | [] => true
  | f :: fs => canonB f.2 && canonFields fs
end

/-- A key the source's unescaped path join round-trips through the pointer
parser: it contains neither `/` nor `~`. -/
def cleanKeyB (k : String) : Bool := k.data.all fun c => !(c == '/' || c == '~')

mutual
/-- All object keys in the tree are clean. -/
def cleanB : JValue → Bool
  | .obj fs => cleanFields fs
  | .arr xs => cleanItems xs
  | _ => true
def cleanItems : List JValue → Bool
  | [] => true
  | x :: xs => cleanB x && cleanItems xs
def cleanFields : List (String × JValue) → Bool
  | [] => true
  | f :: fs => cleanKeyB f.1 && cleanB f.2 && cleanFields fs
end

def cleanSegB : Seg → Bool
  | .key k => cleanKeyB k
  | .idx _ => true

def cleanSegsB (p : List Seg) : Bool := p.all cleanSegB

/-- Both values are objects, or both are arrays. -/
def containerPair : JValue → JValue → Bool
  | .obj _, .obj _ => true
  | .arr _, .arr _ => true
  | _, _ => false


/-- The function `F` is the filler of a one-hole context at path `p`: acting through
`modSegs` at `p` inside any filled tree `F w` acts on the hole's content `w`
and refills. -/
def CtxOK (p : List Seg) (F : JValue → JValue) : Prop :=
  ∀ w act, modSegs (F w) p act = (act w).map F

/-- The forward half of the Diff Recorder round trip at any hole. -/
def DiffDoOK (base modified : JValue) : Prop :=
  ∀ p F, CtxOK p F →
    applyPatchesS (F base) (diffV p base modified).1 = some (F modified)

/-- The inverse half of the Diff Recorder round trip at any hole. -/
def DiffUndoOK (base modified : JValue) : Prop :=
  ∀ p F, CtxOK p F →
    applyPatchesS (F modified) (diffV p base modified).2 = some (F base)

/-- Strictly ascending keys. -/
def sortedLt (fs : List (String × JValue)) : Prop :=
  List.Pairwise (fun a b => a.1 < b.1) fs

/-- Every patch emitted for this pair extends the call prefix, with clean
segments when the trees are clean, and strictly when the pair is a container
pair. -/
def PathsOK (base modified : JValue) : Prop :=
  ∀ (p : List Seg) (pt : Patch),
    pt ∈ (diffV p base modified).1 ++ (diffV p base modified).2 →
    ∃ q, pt.path = p ++ q ∧
      (cleanB base = true → cleanB modified = true → cleanSegsB q = true) ∧
      (containerPair base modified = true → q ≠ [])

/-- The spec's concrete scenario state, `{"items": ["a","b"]}`. -/
def itemsAB : JValue := .obj [("items", .arr [.str "a", .str "b"])]

/-- The concrete scenario's result state, `{"items": ["a","b","c"]}`. -/
def itemsABC : JValue := .obj [("items", .arr [.str "a", .str "b", .str "c"])]

/-- The "append c" recipe of the concrete scenario. -/
def appendC : JValue → Unit → Except String JValue := fun _ _ => .ok itemsABC

/-- The command the concrete scenario records. -/
def appendCmd : Command :=
  ⟨[⟨"add", "/items/2", some (.str "c"), none⟩],
   [⟨"remove", "/items/2", none, none⟩]⟩

/-- A command whose operations address a path absent from the empty object. -/
def nopeCmd : Command :=
  ⟨[⟨"add", "/nope", some .null, none⟩],
   [⟨"remove", "/nope", none, none⟩]⟩

/-! ## Theorems -/

theorem sizeOf_pos_j (a : JValue) : 0 < sizeOf a := by
  cases a <;> simp_arith

/-- Strong induction over the nested inductive `JValue`. -/
theorem JValue.strongInduction (motive : JValue → Prop)
    (hnull : motive .null) (hbool : ∀ b, motive (.bool b))
    (hnum : ∀ n, motive (.num n)) (hstr : ∀ s, motive (.str s))
    (harr : ∀ xs, (∀ x ∈ xs, motive x) → motive (.arr xs))
    (hobj : ∀ fs, (∀ kv ∈ fs, motive kv.2) → motive (.obj fs)) :
    ∀ v, motive v := by
  have main : ∀ n v, sizeOf v ≤ n → motive v := by
    intro n
    induction n with
    | zero =>
      intro v h
      exact absurd (Nat.lt_of_lt_of_le (sizeOf_pos_j v) h) (by omega)
    | succ n ih =>
      intro v h
      cases v with
      | null => exact hnull
      | bool b => exact hbool b
      | num m => exact hnum m
      | str s => exact hstr s
      | arr xs =>
        refine harr xs fun x hx => ih x ?_
        have h1 : sizeOf x < sizeOf xs := List.sizeOf_lt_of_mem hx
        have h2 : sizeOf (JValue.arr xs) = 1 + sizeOf xs := by simp
        omega
      | obj fs =>
        refine hobj fs fun kv hkv => ih kv.2 ?_
        have h1 : sizeOf kv < sizeOf fs := List.sizeOf_lt_of_mem hkv
        have h2 : sizeOf (JValue.obj fs) = 1 + sizeOf fs := by simp
        have h3 : sizeOf kv.2 < sizeOf kv := by
          obtain ⟨k, v⟩ := kv
          simp_arith
        omega
  exact fun v => main (sizeOf v) v (Nat.le_refl _)

/-- Strong induction over pairs of values, by total size. -/
theorem JValue.pairInduction (motive : JValue → JValue → Prop)
    (step : ∀ a b, (∀ a' b', sizeOf a' + sizeOf b' < sizeOf a + sizeOf b → motive a' b') →
      motive a b) : ∀ a b, motive a b := by
  have main : ∀ n a b, sizeOf a + sizeOf b ≤ n → motive a b := by
    intro n
    induction n with
    | zero =>
      intro a b h
      exact absurd (Nat.lt_of_lt_of_le (Nat.lt_of_lt_of_le (sizeOf_pos_j a) (by omega)) h)
        (by omega)
    | succ n ih =>
      intro a b h
      exact step a b fun a' b' hlt => ih a' b' (by omega)
  exact fun a b => main (sizeOf a + sizeOf b) a b (Nat.le_refl _)

theorem jeqList_iff (xs ys : List JValue)
    (IH : ∀ x ∈ xs, ∀ b, jeq x b = true ↔ x = b) :
    jeqList xs ys = true ↔ xs = ys := by
  induction xs generalizing ys with
  | nil => cases ys <;> simp [jeqList]
  | cons x xs ihx =>
    cases ys with
    | nil => simp [jeqList]
    | cons y ys =>
      rw [jeqList]
      simp only [Bool.and_eq_true]
      rw [IH x (by simp), ihx ys (fun z hz b => IH z (List.mem_cons_of_mem _ hz) b)]
      simp

theorem jeqFields_iff (fs gs : List (String × JValue))
    (IH : ∀ kv ∈ fs, ∀ b, jeq kv.2 b = true ↔ kv.2 = b) :
    jeqFields fs gs = true ↔ fs = gs := by
  induction fs generalizing gs with
  | nil => cases gs <;> simp [jeqFields]
  | cons f fs ihf =>
    cases gs with
    | nil => simp [jeqFields]
    | cons g gs =>
      obtain ⟨k, v⟩ := f
      obtain ⟨k', v'⟩ := g
      rw [jeqFields]
      simp only [Bool.and_eq_true]
      rw [IH (k, v) (by simp), ihf gs (fun z hz b => IH z (List.mem_cons_of_mem _ hz) b)]
      simp [beq_iff_eq, and_assoc]

theorem jeq_iff_eq : ∀ a b : JValue, jeq a b = true ↔ a = b := by
  intro a
  induction a using JValue.strongInduction with
  | hnull => intro b; cases b <;> simp [jeq]
  | hbool x => intro b; cases b <;> simp [jeq]
  | hnum x => intro b; cases b <;> simp [jeq]
  | hstr x => intro b; cases b <;> simp [jeq]
  | harr xs IH =>
    intro b
    cases b <;> simp [jeq]
    exact jeqList_iff xs _ IH
  | hobj fs IH =>
    intro b
    cases b <;> simp [jeq]
    exact jeqFields_iff fs _ IH


theorem jeq_self (a : JValue) : jeq a a = true := (jeq_iff_eq a a).mpr rfl

theorem diffV_self (p : List Seg) (a : JValue) : diffV p a a = ([], []) := by
  rw [diffV.eq_def]
  simp [jeq_self]

/-! ### One-hole context machinery for the round-trip theorem -/

theorem getKey_setKey_self (k : String) (w : JValue) :
    ∀ fs, getKey (setKey fs k w) k = some w := by
  intro fs
  induction fs with
  | nil => simp [setKey, getKey]
  | cons e fs ih =>
    obtain ⟨k', v'⟩ := e
    by_cases h1 : k = k'
    · simp [setKey, h1, getKey]
    · by_cases h2 : k < k'
      · simp [setKey, h1, h2, getKey]
      · simp [setKey, h1, h2, getKey, ih]

theorem setKey_setKey (k : String) (x y : JValue) :
    ∀ fs, setKey (setKey fs k x) k y = setKey fs k y := by
  intro fs
  induction fs with
  | nil => simp [setKey]
  | cons e fs ih =>
    obtain ⟨k', v'⟩ := e
    by_cases h1 : k = k'
    · simp [setKey, h1]
    · by_cases h2 : k < k'
      · simp [setKey, h1, h2]
      · simp [setKey, h1, h2, ih]

theorem getq_some_lt : ∀ (L : List JValue) (i : Nat) (x : JValue),
    L[i]? = some x → i < L.length := by
  intro L
  induction L with
  | nil => intro i x h; simp at h
  | cons a L ih =>
    intro i x h
    cases i with
    | zero => simp
    | succ i =>
      simp only [List.getElem?_cons_succ] at h
      have := ih i x h
      simp
      omega

theorem getq_set_self : ∀ (L : List JValue) (i : Nat) (w : JValue),
    i < L.length → (L.set i w)[i]? = some w := by
  intro L
  induction L with
  | nil => intro i w h; simp at h
  | cons a L ih =>
    intro i w h
    cases i with
    | zero => simp
    | succ i =>
      simp only [List.set, List.getElem?_cons_succ]
      exact ih i w (by simp at h; omega)

theorem getq_append_len : ∀ (A : List JValue) (x : JValue) (rest : List JValue),
    (A ++ x :: rest)[A.length]? = some x := by
  intro A
  induction A with
  | nil => intro x rest; simp
  | cons a A ih => intro x rest; simpa using ih x rest

theorem set_append_len : ∀ (A : List JValue) (x : JValue) (rest : List JValue) (y : JValue),
    (A ++ x :: rest).set A.length y = A ++ y :: rest := by
  intro A
  induction A with
  | nil => intro x rest y; rfl
  | cons a A ih => intro x rest y; simp [List.set, ih]

theorem insAt_len : ∀ (L : List JValue) (w : JValue), insAt L.length w L = L ++ [w] := by
  intro L
  induction L with
  | nil => intro w; rfl
  | cons a L ih => intro w; simp [insAt, ih]

theorem removeAtL_append : ∀ (X : List JValue) (e : JValue) (rest : List JValue),
    removeAtL X.length (X ++ e :: rest) = X ++ rest := by
  intro X
  induction X with
  | nil => intro e rest; rfl
  | cons a X ih => intro e rest; simp [removeAtL, ih]

theorem modSegs_append (p q : List Seg) (act : JValue → Option JValue) :
    ∀ v, modSegs v (p ++ q) act = modSegs v p fun c => modSegs c q act := by
  induction p with
  | nil => intro v; simp [modSegs]
  | cons s p ih =>
    intro v
    cases v <;> cases s <;> simp [modSegs, ih]

theorem applyPatchesS_append (l1 l2 : List Patch) :
    ∀ v, applyPatchesS v (l1 ++ l2) = (applyPatchesS v l1).bind (applyPatchesS · l2) := by
  induction l1 with
  | nil => intro v; simp [applyPatchesS]
  | cons pt l1 ih =>
    intro v
    cases h : applyPatchS v pt <;> simp [applyPatchesS, h, ih]

theorem ctx_id : CtxOK [] id := by
  intro w act
  cases haw : act w <;> simp [modSegs, haw]

theorem ctx_key (p : List Seg) (F : JValue → JValue) (fs : List (String × JValue))
    (k : String) (c : JValue) (hF : CtxOK p F) (_hget : getKey fs k = some c) :
    CtxOK (p ++ [.key k]) fun w => F (.obj (setKey fs k w)) := by
  intro w act
  rw [modSegs_append, hF]
  cases haw : act w <;> simp [modSegs, getKey_setKey_self, setKey_setKey, haw]

theorem ctx_idx (p : List Seg) (F : JValue → JValue) (L : List JValue)
    (i : Nat) (x : JValue) (hF : CtxOK p F) (hget : L[i]? = some x) :
    CtxOK (p ++ [.idx i]) fun w => F (.arr (L.set i w)) := by
  intro w act
  rw [modSegs_append, hF]
  have hi : i < L.length := getq_some_lt L i x hget
  cases haw : act w <;> simp [modSegs, getq_set_self _ _ _ hi, List.set_set, haw]

theorem applyPatchS_add (p : List Seg) (sg : Seg) (w : JValue) (v : JValue) :
    applyPatchS v ⟨.add, p ++ [sg], some w⟩ =
      modSegs v p fun parent => addChildS parent sg w := by
  simp [applyPatchS]

theorem applyPatchS_remove (p : List Seg) (sg : Seg) (v : JValue) :
    applyPatchS v ⟨.remove, p ++ [sg], none⟩ =
      modSegs v p fun parent => removeChildS parent sg := by
  simp [applyPatchS]

theorem applyPatchS_replace (p : List Seg) (w : JValue) (v : JValue) :
    applyPatchS v ⟨.replace, p, some w⟩ = modSegs v p fun _ => some w := by
  simp [applyPatchS]

theorem addsFrom_spec (vs : List JValue) :
    ∀ (p : List Seg) (F : JValue → JValue) (L : List JValue), CtxOK p F →
      applyPatchesS (F (.arr L)) (addsFrom p L.length vs) = some (F (.arr (L ++ vs))) := by
  induction vs with
  | nil => intro p F L hF; simp [addsFrom, applyPatchesS]
  | cons w vs ih =>
    intro p F L hF
    simp only [addsFrom, applyPatchesS]
    rw [applyPatchS_add, hF]
    simp only [addChildS, le_refl, if_pos, insAt_len]
    have step := ih p F (L ++ [w]) hF
    simp only [List.length_append, List.length_cons, List.length_nil] at step
    simpa [List.append_assoc] using step

theorem remsDesc_spec (E : List JValue) :
    ∀ (p : List Seg) (F : JValue → JValue) (L : List JValue), CtxOK p F →
      applyPatchesS (F (.arr (L ++ E))) (remsDesc p L.length E.length) = some (F (.arr L)) := by
  induction E using List.reverseRecOn with
  | nil => intro p F L hF; simp [remsDesc, applyPatchesS]
  | append_singleton E e ih =>
    intro p F L hF
    have hlen : (E ++ [e]).length = E.length + 1 := by simp
    rw [hlen]
    simp only [remsDesc, applyPatchesS]
    rw [applyPatchS_remove, hF]
    have hguard : L.length + E.length < (L ++ (E ++ [e])).length := by simp
    have hrm : removeAtL (L.length + E.length) (L ++ (E ++ [e])) = L ++ E := by
      have := removeAtL_append (L ++ E) e []
      simpa [List.append_assoc, List.length_append] using this
    simp only [removeChildS, hguard, if_pos, hrm]
    simpa using ih p F L hF

theorem diffList_do (xs : List JValue) :
    ∀ ys : List JValue, (∀ x ∈ xs, ∀ y ∈ ys, DiffDoOK x y) →
      ∀ (p : List Seg) (F : JValue → JValue) (A C : List JValue), CtxOK p F →
        applyPatchesS (F (.arr (A ++ xs ++ C))) (diffList p A.length xs ys).1 =
          some (F (.arr (A ++ (ys.take xs.length ++ xs.drop ys.length) ++ C))) := by
  induction xs with
  | nil =>
    intro ys IH p F A C hF
    simp [diffList, applyPatchesS]
  | cons x xs ih =>
    intro ys IH p F A C hF
    cases ys with
    | nil => simp [diffList, applyPatchesS]
    | cons y ys =>
      rw [diffList]
      simp only []
      rw [applyPatchesS_append]
      have hget : (A ++ x :: (xs ++ C))[A.length]? = some x := getq_append_len A x (xs ++ C)
      have hctx := ctx_idx p F (A ++ x :: (xs ++ C)) A.length x hF hget
      have hx : (A ++ x :: (xs ++ C)).set A.length x = A ++ x :: (xs ++ C) :=
        set_append_len A x (xs ++ C) x
      have hy : (A ++ x :: (xs ++ C)).set A.length y = A ++ y :: (xs ++ C) :=
        set_append_len A x (xs ++ C) y
      have hel : applyPatchesS (F (.arr (A ++ x :: (xs ++ C))))
          (diffV (p ++ [.idx A.length]) x y).1 = some (F (.arr (A ++ y :: (xs ++ C)))) := by
        have h0 := IH x (by simp) y (by simp) (p ++ [.idx A.length])
          (fun w => F (.arr ((A ++ x :: (xs ++ C)).set A.length w))) hctx
        simpa [hx, hy] using h0
      have htree : A ++ (x :: xs) ++ C = A ++ x :: (xs ++ C) := by simp
      rw [show A ++ x :: xs ++ C = A ++ x :: (xs ++ C) from by simp, hel]
      have hrest := ih ys (fun a ha b hb => IH a (by simp [ha]) b (by simp [hb]))
        p F (A ++ [y]) C hF
      have hA' : (A ++ [y]).length = A.length + 1 := by simp
      rw [hA'] at hrest
      have htree2 : (A ++ [y]) ++ xs ++ C = A ++ y :: (xs ++ C) := by simp
      rw [htree2] at hrest
      simp only [Option.some_bind]
      rw [hrest]
      simp [List.append_assoc]

theorem diffList_undo (xs : List JValue) :
    ∀ ys : List JValue, (∀ x ∈ xs, ∀ y ∈ ys, DiffUndoOK x y) →
      ∀ (p : List Seg) (F : JValue → JValue) (A C : List JValue), CtxOK p F →
        applyPatchesS (F (.arr (A ++ ys ++ C))) (diffList p A.length xs ys).2 =
          some (F (.arr (A ++ (xs.take ys.length ++ ys.drop xs.length) ++ C))) := by
  induction xs with
  | nil =>
    intro ys IH p F A C hF
    simp [diffList, applyPatchesS]
  | cons x xs ih =>
    intro ys IH p F A C hF
    cases ys with
    | nil => simp [diffList, applyPatchesS]
    | cons y ys =>
      rw [diffList]
      simp only []
      rw [applyPatchesS_append]
      have hget : (A ++ y :: (ys ++ C))[A.length]? = some y := getq_append_len A y (ys ++ C)
      have hctx := ctx_idx p F (A ++ y :: (ys ++ C)) A.length y hF hget
      have hy : (A ++ y :: (ys ++ C)).set A.length y = A ++ y :: (ys ++ C) :=
        set_append_len A y (ys ++ C) y
      have hx : (A ++ y :: (ys ++ C)).set A.length x = A ++ x :: (ys ++ C) :=
        set_append_len A y (ys ++ C) x
      have hel : applyPatchesS (F (.arr (A ++ y :: (ys ++ C))))
          (diffV (p ++ [.idx A.length]) x y).2 = some (F (.arr (A ++ x :: (ys ++ C)))) := by
        have h0 := IH x (by simp) y (by simp) (p ++ [.idx A.length])
          (fun w => F (.arr ((A ++ y :: (ys ++ C)).set A.length w))) hctx
        simpa [hy, hx] using h0
      rw [show A ++ y :: ys ++ C = A ++ y :: (ys ++ C) from by simp, hel]
      have hrest := ih ys (fun a ha b hb => IH a (by simp [ha]) b (by simp [hb]))
        p F (A ++ [x]) C hF
      have hA' : (A ++ [x]).length = A.length + 1 := by simp
      rw [hA'] at hrest
      have htree2 : (A ++ [x]) ++ ys ++ C = A ++ x :: (ys ++ C) := by simp
      rw [htree2] at hrest
      simp only [Option.some_bind]
      rw [hrest]
      simp [List.append_assoc]

theorem getKey_append_cons (k : String) (v : JValue) (tail : List (String × JValue)) :
    ∀ G : List (String × JValue), (∀ e ∈ G, e.1 ≠ k) →
      getKey (G ++ (k, v) :: tail) k = some v := by
  intro G
  induction G with
  | nil => intro _; simp [getKey]
  | cons e G ih =>
    intro hG
    have hne : ¬ k = e.1 := fun h => hG e (by simp) h.symm
    obtain ⟨k0, v0⟩ := e
    simp only [List.cons_append, getKey, if_neg hne]
    exact ih fun e' he' => hG e' (by simp [he'])

theorem removeKey_append_cons (k : String) (v : JValue) (tail : List (String × JValue)) :
    ∀ G : List (String × JValue), (∀ e ∈ G, e.1 ≠ k) →
      removeKey (G ++ (k, v) :: tail) k = G ++ tail := by
  intro G
  induction G with
  | nil => intro _; simp [removeKey]
  | cons e G ih =>
    intro hG
    have hne : ¬ k = e.1 := fun h => hG e (by simp) h.symm
    obtain ⟨k0, v0⟩ := e
    simp only [List.cons_append, removeKey, if_neg hne]
    exact congrArg (List.cons (k0, v0)) (ih fun e' he' => hG e' (by simp [he']))

theorem setKey_replace_mid (k : String) (v w : JValue) (tail : List (String × JValue)) :
    ∀ G : List (String × JValue), (∀ e ∈ G, e.1 < k) →
      setKey (G ++ (k, v) :: tail) k w = G ++ (k, w) :: tail := by
  intro G
  induction G with
  | nil => intro _; simp [setKey]
  | cons e G ih =>
    intro hG
    have hlt : e.1 < k := hG e (by simp)
    have h1 : ¬ k = e.1 := fun h => absurd hlt (h ▸ lt_irrefl _)
    have h2 : ¬ k < e.1 := lt_asymm hlt
    obtain ⟨k0, v0⟩ := e
    simp only [List.cons_append, setKey, if_neg h1, if_neg h2]
    exact congrArg (List.cons (k0, v0)) (ih fun e' he' => hG e' (by simp [he']))

theorem setKey_insert_mid (k' : String) (v' : JValue) (tail : List (String × JValue))
    (htail : ∀ e ∈ tail.head?, k' < e.1) :
    ∀ G : List (String × JValue), (∀ e ∈ G, e.1 < k') →
      setKey (G ++ tail) k' v' = G ++ (k', v') :: tail := by
  intro G
  induction G with
  | nil =>
    intro _
    cases tail with
    | nil => simp [setKey]
    | cons e t =>
      have hlt : k' < e.1 := htail e (by simp)
      have h1 : ¬ k' = e.1 := ne_of_lt hlt
      obtain ⟨k0, v0⟩ := e
      simp only [List.nil_append, setKey, if_neg h1, if_pos hlt]
  | cons e G ih =>
    intro hG
    have hlt : e.1 < k' := hG e (by simp)
    have h1 : ¬ k' = e.1 := fun h => absurd hlt (h ▸ lt_irrefl _)
    have h2 : ¬ k' < e.1 := lt_asymm hlt
    obtain ⟨k0, v0⟩ := e
    simp only [List.cons_append, setKey, if_neg h1, if_neg h2]
    exact congrArg (List.cons (k0, v0)) (ih fun e' he' => hG e' (by simp [he']))

theorem diffObj_do :
    ∀ (n : Nat) (fs gs : List (String × JValue)), fs.length + gs.length ≤ n →
      (∀ e ∈ fs, ∀ e' ∈ gs, DiffDoOK e.2 e'.2) →
      sortedLt fs → sortedLt gs →
      ∀ (p : List Seg) (F : JValue → JValue) (G : List (String × JValue)), CtxOK p F →
        (∀ e ∈ G, ∀ e' ∈ fs, e.1 < e'.1) → (∀ e ∈ G, ∀ e' ∈ gs, e.1 < e'.1) →
        applyPatchesS (F (.obj (G ++ fs))) (diffObj p fs gs).1 = some (F (.obj (G ++ gs))) := by
  intro n
  induction n with
  | zero =>
    intro fs gs hlen IH hsf hsg p F G hF hGf hGg
    cases fs with
    | cons f fs => simp at hlen
    | nil =>
      cases gs with
      | cons g gs => simp at hlen
      | nil => simp [diffObj, applyPatchesS]
  | succ n ih =>
    intro fs gs hlen IH hsf hsg p F G hF hGf hGg
    cases fs with
    | nil =>
      cases gs with
      | nil => simp [diffObj, applyPatchesS]
      | cons g gs =>
        obtain ⟨k, v⟩ := g
        rw [diffObj]
        simp only [applyPatchesS]
        rw [applyPatchS_add, hF]
        have hset : setKey G k v = G ++ [(k, v)] := by
          have h0 := setKey_insert_mid k v [] (by simp) G
            (fun e he => hGg e he (k, v) (by simp))
          simpa using h0
        simp only [addChildS, List.append_nil, hset, Option.map_some', Option.some_bind]
        have hrec := ih [] gs (by simp at hlen ⊢; omega)
          (by intro e he; simp at he)
          (by constructor)
          (List.pairwise_cons.mp hsg).2
          p F (G ++ [(k, v)]) hF
          (by intro e he e' he'; simp at he')
          (by
            intro e he e' he'
            rcases List.mem_append.mp he with h | h
            · exact hGg e h e' (by simp [he'])
            · simp at h
              rw [h]
              exact (List.pairwise_cons.mp hsg).1 e' he')
        simp only [List.append_nil] at hrec
        rw [hrec]
        simp
    | cons f fs =>
      obtain ⟨k, v⟩ := f
      cases gs with
      | nil =>
        rw [diffObj]
        simp only [applyPatchesS]
        rw [applyPatchS_remove, hF]
        have hne : ∀ e ∈ G, e.1 ≠ k := fun e he =>
          ne_of_lt (hGf e he (k, v) (by simp))
        have hgetk : getKey (G ++ (k, v) :: fs) k = some v := getKey_append_cons k v fs G hne
        have hrm : removeKey (G ++ (k, v) :: fs) k = G ++ fs := removeKey_append_cons k v fs G hne
        simp only [removeChildS, hgetk, hrm, Option.map_some', Option.some_bind]
        have hrec := ih fs [] (by simp at hlen ⊢; omega)
          (by intro e he e' he'; simp at he')
          (List.pairwise_cons.mp hsf).2
          (by constructor)
          p F G hF
          (fun e he e' he' => hGf e he e' (by simp [he']))
          (by intro e he e' he'; simp at he')
        rw [hrec]
      | cons g gs =>
        obtain ⟨k', v'⟩ := g
        by_cases hk : k = k'
        · subst hk
          have hd : (diffObj p ((k, v) :: fs) ((k, v') :: gs)).1 =
              (diffV (p ++ [.key k]) v v').1 ++ (diffObj p fs gs).1 := by
            rw [diffObj]
            simp
          rw [hd, applyPatchesS_append]
          have hne : ∀ e ∈ G, e.1 ≠ k := fun e he =>
            ne_of_lt (hGf e he (k, v) (by simp))
          have hlt : ∀ e ∈ G, e.1 < k := fun e he => hGf e he (k, v) (by simp)
          have hgetk : getKey (G ++ (k, v) :: fs) k = some v := getKey_append_cons k v fs G hne
          have hctx := ctx_key p F (G ++ (k, v) :: fs) k v hF hgetk
          have hsame : setKey (G ++ (k, v) :: fs) k v = G ++ (k, v) :: fs :=
            setKey_replace_mid k v v fs G hlt
          have hrepl : setKey (G ++ (k, v) :: fs) k v' = G ++ (k, v') :: fs :=
            setKey_replace_mid k v v' fs G hlt
          have hel : applyPatchesS (F (.obj (G ++ (k, v) :: fs)))
              (diffV (p ++ [.key k]) v v').1 = some (F (.obj (G ++ (k, v') :: fs))) := by
            have h0 := IH (k, v) (by simp) (k, v') (by simp) (p ++ [.key k])
              (fun w => F (.obj (setKey (G ++ (k, v) :: fs) k w))) hctx
            simpa [hsame, hrepl] using h0
          rw [hel]
          simp only [Option.some_bind]
          have hrec := ih fs gs (by simp at hlen ⊢; omega)
            (fun e he e' he' => IH e (by simp [he]) e' (by simp [he']))
            (List.pairwise_cons.mp hsf).2 (List.pairwise_cons.mp hsg).2
            p F (G ++ [(k, v')]) hF
            (by
              intro e he e' he'
              rcases List.mem_append.mp he with h | h
              · exact hGf e h e' (by simp [he'])
              · simp at h
                rw [h]
                exact (List.pairwise_cons.mp hsf).1 e' he')
            (by
              intro e he e' he'
              rcases List.mem_append.mp he with h | h
              · exact hGg e h e' (by simp [he'])
              · simp at h
                rw [h]
                exact (List.pairwise_cons.mp hsg).1 e' he')
          have htree : (G ++ [(k, v')]) ++ fs = G ++ (k, v') :: fs := by simp
          have htree2 : (G ++ [(k, v')]) ++ gs = G ++ (k, v') :: gs := by simp
          rw [htree, htree2] at hrec
          exact hrec
        · by_cases hk2 : k < k'
          · have hd : (diffObj p ((k, v) :: fs) ((k', v') :: gs)).1 =
                ⟨.remove, p ++ [.key k], none⟩ :: (diffObj p fs ((k', v') :: gs)).1 := by
              rw [diffObj]
              simp [hk, hk2]
            rw [hd]
            simp only [applyPatchesS]
            rw [applyPatchS_remove, hF]
            have hne : ∀ e ∈ G, e.1 ≠ k := fun e he =>
              ne_of_lt (hGf e he (k, v) (by simp))
            have hgetk : getKey (G ++ (k, v) :: fs) k = some v := getKey_append_cons k v fs G hne
            have hrm : removeKey (G ++ (k, v) :: fs) k = G ++ fs :=
              removeKey_append_cons k v fs G hne
            simp only [removeChildS, hgetk, hrm, Option.map_some', Option.some_bind]
            have hrec := ih fs ((k', v') :: gs) (by simp at hlen ⊢; omega)
              (fun e he e' he' => IH e (by simp [he]) e' he')
              (List.pairwise_cons.mp hsf).2 hsg
              p F G hF
              (fun e he e' he' => hGf e he e' (by simp [he']))
              hGg
            rw [hrec]
          · have hk3 : k' < k := by
              rcases lt_trichotomy k k' with h | h | h
              · exact absurd h hk2
              · exact absurd h hk
              · exact h
            have hd : (diffObj p ((k, v) :: fs) ((k', v') :: gs)).1 =
                ⟨.add, p ++ [.key k'], some v'⟩ :: (diffObj p ((k, v) :: fs) gs).1 := by
              rw [diffObj]
              simp [hk, hk2]
            rw [hd]
            simp only [applyPatchesS]
            rw [applyPatchS_add, hF]
            have hset : setKey (G ++ (k, v) :: fs) k' v' = G ++ (k', v') :: (k, v) :: fs := by
              rw [setKey_insert_mid k' v' ((k, v) :: fs) (by simpa using hk3) G
                (fun e he => hGg e he (k', v') (by simp))]
            simp only [addChildS, hset, Option.map_some', Option.some_bind]
            have hrec := ih ((k, v) :: fs) gs (by simp at hlen ⊢; omega)
              (fun e he e' he' => IH e he e' (by simp [he']))
              hsf (List.pairwise_cons.mp hsg).2
              p F (G ++ [(k', v')]) hF
              (by
                intro e he e' he'
                rcases List.mem_append.mp he with h | h
                · exact hGf e h e' he'
                · simp at h
                  rw [h]
                  rcases List.mem_cons.mp he' with h2 | h2
                  · rw [h2]; exact hk3
                  · exact lt_trans hk3 ((List.pairwise_cons.mp hsf).1 e' h2))
              (by
                intro e he e' he'
                rcases List.mem_append.mp he with h | h
                · exact hGg e h e' (by simp [he'])
                · simp at h
                  rw [h]
                  exact (List.pairwise_cons.mp hsg).1 e' he')
            have htree : (G ++ [(k', v')]) ++ (k, v) :: fs = G ++ (k', v') :: (k, v) :: fs := by
              simp
            have htree2 : (G ++ [(k', v')]) ++ gs = G ++ (k', v') :: gs := by simp
            rw [htree, htree2] at hrec
            rw [hrec]

theorem diffObj_undo :
    ∀ (n : Nat) (fs gs : List (String × JValue)), fs.length + gs.length ≤ n →
      (∀ e ∈ fs, ∀ e' ∈ gs, DiffUndoOK e.2 e'.2) →
      sortedLt fs → sortedLt gs →
      ∀ (p : List Seg) (F : JValue → JValue) (G : List (String × JValue)), CtxOK p F →
        (∀ e ∈ G, ∀ e' ∈ fs, e.1 < e'.1) → (∀ e ∈ G, ∀ e' ∈ gs, e.1 < e'.1) →
        applyPatchesS (F (.obj (G ++ gs))) (diffObj p fs gs).2 = some (F (.obj (G ++ fs))) := by
  intro n
  induction n with
  | zero =>
    intro fs gs hlen IH hsf hsg p F G hF hGf hGg
    cases fs with
    | cons f fs => simp at hlen
    | nil =>
      cases gs with
      | cons g gs => simp at hlen
      | nil => simp [diffObj, applyPatchesS]
  | succ n ih =>
    intro fs gs hlen IH hsf hsg p F G hF hGf hGg
    cases fs with
    | nil =>
      cases gs with
      | nil => simp [diffObj, applyPatchesS]
      | cons g gs =>
        obtain ⟨k, v⟩ := g
        have hd : (diffObj p [] ((k, v) :: gs)).2 =
            ⟨.remove, p ++ [.key k], none⟩ :: (diffObj p [] gs).2 := by
          rw [diffObj]
        rw [hd]
        simp only [applyPatchesS]
        rw [applyPatchS_remove, hF]
        have hne : ∀ e ∈ G, e.1 ≠ k := fun e he =>
          ne_of_lt (hGg e he (k, v) (by simp))
        have hgetk : getKey (G ++ (k, v) :: gs) k = some v := getKey_append_cons k v gs G hne
        have hrm : removeKey (G ++ (k, v) :: gs) k = G ++ gs := removeKey_append_cons k v gs G hne
        simp only [removeChildS, hgetk, hrm, Option.map_some', Option.some_bind]
        have hrec := ih [] gs (by simp at hlen ⊢; omega)
          (by intro e he; simp at he)
          (by constructor)
          (List.pairwise_cons.mp hsg).2
          p F G hF
          (by intro e he e' he'; simp at he')
          (fun e he e' he' => hGg e he e' (by simp [he']))
        rw [hrec]
    | cons f fs =>
      obtain ⟨k, v⟩ := f
      cases gs with
      | nil =>
        have hd : (diffObj p ((k, v) :: fs) []).2 =
            ⟨.add, p ++ [.key k], some v⟩ :: (diffObj p fs []).2 := by
          rw [diffObj]
        rw [hd]
        simp only [applyPatchesS]
        rw [applyPatchS_add, hF]
        have hset : setKey (G ++ []) k v = G ++ [(k, v)] := by
          have h0 := setKey_insert_mid k v [] (by simp) G
            (fun e he => hGf e he (k, v) (by simp))
          simpa using h0
        simp only [addChildS, hset, Option.map_some', Option.some_bind]
        have hrec := ih fs [] (by simp at hlen ⊢; omega)
          (by intro e he e' he'; simp at he')
          (List.pairwise_cons.mp hsf).2
          (by constructor)
          p F (G ++ [(k, v)]) hF
          (by
            intro e he e' he'
            rcases List.mem_append.mp he with h | h
            · exact hGf e h e' (by simp [he'])
            · simp at h
              rw [h]
              exact (List.pairwise_cons.mp hsf).1 e' he')
          (by intro e he e' he'; simp at he')
        simp only [List.append_nil] at hrec
        rw [hrec]
        simp
      | cons g gs =>
        obtain ⟨k', v'⟩ := g
        by_cases hk : k = k'
        · subst hk
          have hd : (diffObj p ((k, v) :: fs) ((k, v') :: gs)).2 =
              (diffV (p ++ [.key k]) v v').2 ++ (diffObj p fs gs).2 := by
            rw [diffObj]
            simp
          rw [hd, applyPatchesS_append]
          have hlt : ∀ e ∈ G, e.1 < k := fun e he => hGg e he (k, v') (by simp)
          have hne : ∀ e ∈ G, e.1 ≠ k := fun e he => ne_of_lt (hlt e he)
          have hgetk : getKey (G ++ (k, v') :: gs) k = some v' := getKey_append_cons k v' gs G hne
          have hctx := ctx_key p F (G ++ (k, v') :: gs) k v' hF hgetk
          have hsame : setKey (G ++ (k, v') :: gs) k v' = G ++ (k, v') :: gs :=
            setKey_replace_mid k v' v' gs G hlt
          have hrepl : setKey (G ++ (k, v') :: gs) k v = G ++ (k, v) :: gs :=
            setKey_replace_mid k v' v gs G hlt
          have hel : applyPatchesS (F (.obj (G ++ (k, v') :: gs)))
              (diffV (p ++ [.key k]) v v').2 = some (F (.obj (G ++ (k, v) :: gs))) := by
            have h0 := IH (k, v) (by simp) (k, v') (by simp) (p ++ [.key k])
              (fun w => F (.obj (setKey (G ++ (k, v') :: gs) k w))) hctx
            simpa [hsame, hrepl] using h0
          rw [hel]
          simp only [Option.some_bind]
          have hrec := ih fs gs (by simp at hlen ⊢; omega)
            (fun e he e' he' => IH e (by simp [he]) e' (by simp [he']))
            (List.pairwise_cons.mp hsf).2 (List.pairwise_cons.mp hsg).2
            p F (G ++ [(k, v)]) hF
            (by
              intro e he e' he'
              rcases List.mem_append.mp he with h | h
              · exact hGf e h e' (by simp [he'])
              · simp at h
                rw [h]
                exact (List.pairwise_cons.mp hsf).1 e' he')
            (by
              intro e he e' he'
              rcases List.mem_append.mp he with h | h
              · exact hGg e h e' (by simp [he'])
              · simp at h
                rw [h]
                exact (List.pairwise_cons.mp hsg).1 e' he')
          have htree : (G ++ [(k, v)]) ++ gs = G ++ (k, v) :: gs := by simp
          have htree2 : (G ++ [(k, v)]) ++ fs = G ++ (k, v) :: fs := by simp
          rw [htree, htree2] at hrec
          exact hrec
        · by_cases hk2 : k < k'
          · have hd : (diffObj p ((k, v) :: fs) ((k', v') :: gs)).2 =
                ⟨.add, p ++ [.key k], some v⟩ :: (diffObj p fs ((k', v') :: gs)).2 := by
              rw [diffObj]
              simp [hk, hk2]
            rw [hd]
            simp only [applyPatchesS]
            rw [applyPatchS_add, hF]
            have hset : setKey (G ++ (k', v') :: gs) k v = G ++ (k, v) :: (k', v') :: gs := by
              rw [setKey_insert_mid k v ((k', v') :: gs) (by simpa using hk2) G
                (fun e he => hGf e he (k, v) (by simp))]
            simp only [addChildS, hset, Option.map_some', Option.some_bind]
            have hrec := ih fs ((k', v') :: gs) (by simp at hlen ⊢; omega)
              (fun e he e' he' => IH e (by simp [he]) e' he')
              (List.pairwise_cons.mp hsf).2 hsg
              p F (G ++ [(k, v)]) hF
              (by
                intro e he e' he'
                rcases List.mem_append.mp he with h | h
                · exact hGf e h e' (by simp [he'])
                · simp at h
                  rw [h]
                  exact (List.pairwise_cons.mp hsf).1 e' he')
              (by
                intro e he e' he'
                rcases List.mem_append.mp he with h | h
                · exact hGg e h e' he'
                · simp at h
                  rw [h]
                  rcases List.mem_cons.mp he' with h2 | h2
                  · rw [h2]; exact hk2
                  · exact lt_trans hk2 ((List.pairwise_cons.mp hsg).1 e' h2))
            have htree : (G ++ [(k, v)]) ++ (k', v') :: gs = G ++ (k, v) :: (k', v') :: gs := by
              simp
            have htree2 : (G ++ [(k, v)]) ++ fs = G ++ (k, v) :: fs := by simp
            rw [htree, htree2] at hrec
            rw [hrec]
          · have hk3 : k' < k := by
              rcases lt_trichotomy k k' with h | h | h
              · exact absurd h hk2
              · exact absurd h hk
              · exact h
            have hd : (diffObj p ((k, v) :: fs) ((k', v') :: gs)).2 =
                ⟨.remove, p ++ [.key k'], none⟩ :: (diffObj p ((k, v) :: fs) gs).2 := by
              rw [diffObj]
              simp [hk, hk2]
            rw [hd]
            simp only [applyPatchesS]
            rw [applyPatchS_remove, hF]
            have hne : ∀ e ∈ G, e.1 ≠ k' := fun e he =>
              ne_of_lt (hGg e he (k', v') (by simp))
            have hgetk : getKey (G ++ (k', v') :: gs) k' = some v' :=
              getKey_append_cons k' v' gs G hne
            have hrm : removeKey (G ++ (k', v') :: gs) k' = G ++ gs :=
              removeKey_append_cons k' v' gs G hne
            simp only [removeChildS, hgetk, hrm, Option.map_some', Option.some_bind]
            have hrec := ih ((k, v) :: fs) gs (by simp at hlen ⊢; omega)
              (fun e he e' he' => IH e he e' (by simp [he']))
              hsf (List.pairwise_cons.mp hsg).2
              p F G hF
              hGf
              (fun e he e' he' => hGg e he e' (by simp [he']))
            rw [hrec]

theorem canonFields_mem : ∀ fs, canonFields fs = true → ∀ kv ∈ fs, canonB kv.2 = true := by
  intro fs
  induction fs with
  | nil => intro _ kv hkv; simp at hkv
  | cons f fs ih =>
    intro h kv hkv
    rw [canonFields] at h
    simp only [Bool.and_eq_true] at h
    rcases List.mem_cons.mp hkv with h2 | h2
    · rw [h2]; exact h.1
    · exact ih h.2 kv h2

theorem canonItems_mem : ∀ xs, canonItems xs = true → ∀ x ∈ xs, canonB x = true := by
  intro xs
  induction xs with
  | nil => intro _ x hx; simp at hx
  | cons a xs ih =>
    intro h x hx
    rw [canonItems] at h
    simp only [Bool.and_eq_true] at h
    rcases List.mem_cons.mp hx with h2 | h2
    · rw [h2]; exact h.1
    · exact ih h.2 x h2

theorem canon_obj (fs : List (String × JValue)) (h : canonB (.obj fs) = true) :
    chainSortedB fs = true ∧ canonFields fs = true := by
  rw [canonB] at h
  simpa [Bool.and_eq_true] using h

theorem canon_arr (xs : List JValue) (h : canonB (.arr xs) = true) : canonItems xs = true := by
  rw [canonB] at h
  exact h

theorem chainSortedB_sorted : ∀ fs, chainSortedB fs = true → sortedLt fs := by
  intro fs
  induction fs with
  | nil => intro _; exact List.Pairwise.nil
  | cons a fs ih =>
    cases fs with
    | nil => intro _; simp [sortedLt]
    | cons b fs2 =>
      intro h
      rw [chainSortedB] at h
      simp only [Bool.and_eq_true, decide_eq_true_eq] at h
      obtain ⟨hab, h2⟩ := h
      have hp : sortedLt (b :: fs2) := ih h2
      refine List.Pairwise.cons ?_ hp
      intro e he
      rcases List.mem_cons.mp he with h3 | h3
      · rw [h3]; exact hab
      · exact lt_trans hab ((List.pairwise_cons.mp hp).1 e h3)

theorem sizeOf_mem_arr {x : JValue} {xs : List JValue} (hx : x ∈ xs) :
    sizeOf x < sizeOf (JValue.arr xs) := by
  have h1 := List.sizeOf_lt_of_mem hx
  have h2 : sizeOf (JValue.arr xs) = 1 + sizeOf xs := by simp
  omega

theorem sizeOf_mem_obj {kv : String × JValue} {fs : List (String × JValue)} (hkv : kv ∈ fs) :
    sizeOf kv.2 < sizeOf (JValue.obj fs) := by
  have h1 := List.sizeOf_lt_of_mem hkv
  have h2 : sizeOf (JValue.obj fs) = 1 + sizeOf fs := by simp
  have h3 : sizeOf kv.2 < sizeOf kv := by
    obtain ⟨k, v⟩ := kv
    simp_arith
  omega

theorem diffV_replace (a b : JValue) (p : List Seg) (h : jeq a b = false)
    (hshape : containerPair a b = false) :
    diffV p a b = ([⟨.replace, p, some b⟩], [⟨.replace, p, some a⟩]) := by
  cases a <;> cases b <;>
    first
      | (rw [diffV.eq_def]; simp [h]; done)
      | simp [containerPair] at hshape

theorem replace_pair_ok (a b : JValue) (p : List Seg) (F : JValue → JValue) (hF : CtxOK p F) :
    applyPatchesS (F a) [⟨.replace, p, some b⟩] = some (F b) := by
  simp only [applyPatchesS]
  rw [applyPatchS_replace, hF]
  simp

theorem diff_do_leaf (a b : JValue) (hjeq : jeq a b = false)
    (hshape : containerPair a b = false) : DiffDoOK a b := by
  intro p F hF
  rw [diffV_replace a b p hjeq hshape]
  exact replace_pair_ok a b p F hF

theorem diff_undo_leaf (a b : JValue) (hjeq : jeq a b = false)
    (hshape : containerPair a b = false) : DiffUndoOK a b := by
  intro p F hF
  rw [diffV_replace a b p hjeq hshape]
  exact replace_pair_ok b a p F hF

theorem diff_do_arr (xs ys : List JValue)
    (IHe : ∀ x ∈ xs, ∀ y ∈ ys, DiffDoOK x y)
    (hjeq : jeq (.arr xs) (.arr ys) = false) :
    DiffDoOK (.arr xs) (.arr ys) := by
  intro p F hF
  by_cases hlen : xs.length < ys.length
  · have hd : (diffV p (.arr xs) (.arr ys)).1 =
        (diffList p 0 xs ys).1 ++ addsFrom p xs.length (ys.drop xs.length) := by
      rw [diffV.eq_def]
      simp [hjeq, hlen]
    rw [hd, applyPatchesS_append]
    have h1 := diffList_do xs ys IHe p F [] [] hF
    simp only [List.nil_append, List.append_nil, List.length_nil] at h1
    rw [h1]
    simp only [Option.some_bind]
    have hdrop : xs.drop ys.length = [] := List.drop_eq_nil_of_le (by omega)
    rw [hdrop, List.append_nil]
    have h2 := addsFrom_spec (ys.drop xs.length) p F (ys.take xs.length) hF
    have hLlen : (ys.take xs.length).length = xs.length := by
      rw [List.length_take]; omega
    rw [hLlen, List.take_append_drop] at h2
    exact h2
  · have hd : (diffV p (.arr xs) (.arr ys)).1 =
        (diffList p 0 xs ys).1 ++ remsDesc p ys.length (xs.length - ys.length) := by
      rw [diffV.eq_def]
      simp [hjeq, hlen]
    rw [hd, applyPatchesS_append]
    have h1 := diffList_do xs ys IHe p F [] [] hF
    simp only [List.nil_append, List.append_nil, List.length_nil] at h1
    rw [h1]
    simp only [Option.some_bind]
    have htake : ys.take xs.length = ys := List.take_of_length_le (by omega)
    rw [htake]
    have h2 := remsDesc_spec (xs.drop ys.length) p F ys hF
    rw [List.length_drop] at h2
    exact h2

theorem diff_undo_arr (xs ys : List JValue)
    (IHe : ∀ x ∈ xs, ∀ y ∈ ys, DiffUndoOK x y)
    (hjeq : jeq (.arr xs) (.arr ys) = false) :
    DiffUndoOK (.arr xs) (.arr ys) := by
  intro p F hF
  by_cases hlen : xs.length < ys.length
  · have hd : (diffV p (.arr xs) (.arr ys)).2 =
        (diffList p 0 xs ys).2 ++ remsDesc p xs.length (ys.length - xs.length) := by
      rw [diffV.eq_def]
      simp [hjeq, hlen]
    rw [hd, applyPatchesS_append]
    have h1 := diffList_undo xs ys IHe p F [] [] hF
    simp only [List.nil_append, List.append_nil, List.length_nil] at h1
    rw [h1]
    simp only [Option.some_bind]
    have htake : xs.take ys.length = xs := List.take_of_length_le (by omega)
    rw [htake]
    have h2 := remsDesc_spec (ys.drop xs.length) p F xs hF
    rw [List.length_drop] at h2
    exact h2
  · have hd : (diffV p (.arr xs) (.arr ys)).2 =
        (diffList p 0 xs ys).2 ++ addsFrom p ys.length (xs.drop ys.length) := by
      rw [diffV.eq_def]
      simp [hjeq, hlen]
    rw [hd, applyPatchesS_append]
    have h1 := diffList_undo xs ys IHe p F [] [] hF
    simp only [List.nil_append, List.append_nil, List.length_nil] at h1
    rw [h1]
    simp only [Option.some_bind]
    have hdrop : ys.drop xs.length = [] := List.drop_eq_nil_of_le (by omega)
    rw [hdrop, List.append_nil]
    have h2 := addsFrom_spec (xs.drop ys.length) p F (xs.take ys.length) hF
    have hLlen : (xs.take ys.length).length = ys.length := by
      rw [List.length_take]; omega
    rw [hLlen, List.take_append_drop] at h2
    exact h2

theorem diff_do_obj (fs gs : List (String × JValue))
    (IHe : ∀ e ∈ fs, ∀ e' ∈ gs, DiffDoOK e.2 e'.2)
    (hsf : sortedLt fs) (hsg : sortedLt gs)
    (hjeq : jeq (.obj fs) (.obj gs) = false) :
    DiffDoOK (.obj fs) (.obj gs) := by
  intro p F hF
  have hd : (diffV p (.obj fs) (.obj gs)).1 = (diffObj p fs gs).1 := by
    rw [diffV.eq_def]
    simp [hjeq]
  rw [hd]
  have h1 := diffObj_do (fs.length + gs.length) fs gs (le_refl _) IHe hsf hsg p F [] hF
    (by intro e he e' he'; simp at he) (by intro e he e' he'; simp at he)
  simpa using h1

theorem diff_undo_obj (fs gs : List (String × JValue))
    (IHe : ∀ e ∈ fs, ∀ e' ∈ gs, DiffUndoOK e.2 e'.2)
    (hsf : sortedLt fs) (hsg : sortedLt gs)
    (hjeq : jeq (.obj fs) (.obj gs) = false) :
    DiffUndoOK (.obj fs) (.obj gs) := by
  intro p F hF
  have hd : (diffV p (.obj fs) (.obj gs)).2 = (diffObj p fs gs).2 := by
    rw [diffV.eq_def]
    simp [hjeq]
  rw [hd]
  have h1 := diffObj_undo (fs.length + gs.length) fs gs (le_refl _) IHe hsf hsg p F [] hF
    (by intro e he e' he'; simp at he) (by intro e he e' he'; simp at he)
  simpa using h1

theorem containerPair_cases (a b : JValue) (h : containerPair a b = true) :
    (∃ xs ys, a = .arr xs ∧ b = .arr ys) ∨ (∃ fs gs, a = .obj fs ∧ b = .obj gs) := by
  cases a <;> cases b <;>
    first
      | (left; exact ⟨_, _, rfl, rfl⟩)
      | (right; exact ⟨_, _, rfl, rfl⟩)
      | simp [containerPair] at h

theorem diff_do_main : ∀ base modified : JValue,
    canonB base = true → canonB modified = true → DiffDoOK base modified := by
  intro base modified
  induction base, modified using JValue.pairInduction with
  | step a b IH =>
    intro hca hcb
    by_cases hab : a = b
    · subst hab
      intro p F hF
      rw [diffV_self]
      simp [applyPatchesS]
    · have hjeq : jeq a b = false := by
        cases hj : jeq a b
        · rfl
        · exact absurd ((jeq_iff_eq a b).mp hj) hab
      cases hcp : containerPair a b with
      | false => exact diff_do_leaf a b hjeq hcp
      | true =>
        rcases containerPair_cases a b hcp with ⟨xs, ys, rfl, rfl⟩ | ⟨fs, gs, rfl, rfl⟩
        · refine diff_do_arr xs ys ?_ hjeq
          intro x hx y hy
          exact IH x y
            (by have h1 := sizeOf_mem_arr hx; have h2 := sizeOf_mem_arr hy; omega)
            (canonItems_mem xs (canon_arr xs hca) x hx)
            (canonItems_mem ys (canon_arr ys hcb) y hy)
        · refine diff_do_obj fs gs ?_
            (chainSortedB_sorted fs (canon_obj fs hca).1)
            (chainSortedB_sorted gs (canon_obj gs hcb).1) hjeq
          intro e he e' he'
          exact IH e.2 e'.2
            (by have h1 := sizeOf_mem_obj he; have h2 := sizeOf_mem_obj he'; omega)
            (canonFields_mem fs (canon_obj fs hca).2 e he)
            (canonFields_mem gs (canon_obj gs hcb).2 e' he')

theorem diff_undo_main : ∀ base modified : JValue,
    canonB base = true → canonB modified = true → DiffUndoOK base modified := by
  intro base modified
  induction base, modified using JValue.pairInduction with
  | step a b IH =>
    intro hca hcb
    by_cases hab : a = b
    · subst hab
      intro p F hF
      rw [diffV_self]
      simp [applyPatchesS]
    · have hjeq : jeq a b = false := by
        cases hj : jeq a b
        · rfl
        · exact absurd ((jeq_iff_eq a b).mp hj) hab
      cases hcp : containerPair a b with
      | false => exact diff_undo_leaf a b hjeq hcp
      | true =>
        rcases containerPair_cases a b hcp with ⟨xs, ys, rfl, rfl⟩ | ⟨fs, gs, rfl, rfl⟩
        · refine diff_undo_arr xs ys ?_ hjeq
          intro x hx y hy
          exact IH x y
            (by have h1 := sizeOf_mem_arr hx; have h2 := sizeOf_mem_arr hy; omega)
            (canonItems_mem xs (canon_arr xs hca) x hx)
            (canonItems_mem ys (canon_arr ys hcb) y hy)
        · refine diff_undo_obj fs gs ?_
            (chainSortedB_sorted fs (canon_obj fs hca).1)
            (chainSortedB_sorted gs (canon_obj gs hcb).1) hjeq
          intro e he e' he'
          exact IH e.2 e'.2
            (by have h1 := sizeOf_mem_obj he; have h2 := sizeOf_mem_obj he'; omega)
            (canonFields_mem fs (canon_obj fs hca).2 e he)
            (canonFields_mem gs (canon_obj gs hcb).2 e' he')

theorem cleanItems_mem : ∀ xs, cleanItems xs = true → ∀ x ∈ xs, cleanB x = true := by
  intro xs
  induction xs with
  | nil => intro _ x hx; simp at hx
  | cons a xs ih =>
    intro h x hx
    rw [cleanItems] at h
    simp only [Bool.and_eq_true] at h
    rcases List.mem_cons.mp hx with h2 | h2
    · rw [h2]; exact h.1
    · exact ih h.2 x h2

theorem cleanFields_mem : ∀ fs, cleanFields fs = true →
    ∀ kv ∈ fs, cleanKeyB kv.1 = true ∧ cleanB kv.2 = true := by
  intro fs
  induction fs with
  | nil => intro _ kv hkv; simp at hkv
  | cons f fs ih =>
    intro h kv hkv
    rw [cleanFields] at h
    simp only [Bool.and_eq_true] at h
    rcases List.mem_cons.mp hkv with h2 | h2
    · rw [h2]; exact ⟨h.1.1, h.1.2⟩
    · exact ih h.2 kv h2

theorem clean_arr (xs : List JValue) (h : cleanB (.arr xs) = true) : cleanItems xs = true := by
  rw [cleanB] at h
  exact h

theorem clean_obj (fs : List (String × JValue)) (h : cleanB (.obj fs) = true) :
    cleanFields fs = true := by
  rw [cleanB] at h
  exact h

theorem cleanSegsB_append (l1 l2 : List Seg) :
    cleanSegsB (l1 ++ l2) = (cleanSegsB l1 && cleanSegsB l2) := by
  simp [cleanSegsB, List.all_append]

theorem addsFrom_paths (p : List Seg) :
    ∀ (vs : List JValue) (m : Nat) (pt : Patch), pt ∈ addsFrom p m vs →
      ∃ i, pt.path = p ++ [Seg.idx i] := by
  intro vs
  induction vs with
  | nil => intro m pt h; simp [addsFrom] at h
  | cons w vs ih =>
    intro m pt h
    rw [addsFrom] at h
    rcases List.mem_cons.mp h with h2 | h2
    · exact ⟨m, by rw [h2]⟩
    · exact ih (m + 1) pt h2

theorem remsDesc_paths (p : List Seg) (lo : Nat) :
    ∀ (c : Nat) (pt : Patch), pt ∈ remsDesc p lo c →
      ∃ i, pt.path = p ++ [Seg.idx i] := by
  intro c
  induction c with
  | zero => intro pt h; simp [remsDesc] at h
  | succ c ih =>
    intro pt h
    rw [remsDesc] at h
    rcases List.mem_cons.mp h with h2 | h2
    · exact ⟨lo + c, by rw [h2]⟩
    · exact ih pt h2

theorem diffList_paths :
    ∀ (xs ys : List JValue), (∀ x ∈ xs, ∀ y ∈ ys, PathsOK x y) →
      ∀ (p : List Seg) (i : Nat) (pt : Patch),
        pt ∈ (diffList p i xs ys).1 ++ (diffList p i xs ys).2 →
        ∃ q, pt.path = p ++ q ∧ q ≠ [] ∧
          (cleanItems xs = true → cleanItems ys = true → cleanSegsB q = true) := by
  intro xs
  induction xs with
  | nil =>
    intro ys IH p i pt h
    simp [diffList] at h
  | cons x xs ih =>
    intro ys IH p i pt h
    cases ys with
    | nil => simp [diffList] at h
    | cons y ys =>
      rw [diffList] at h
      have hmem : pt ∈ (diffV (p ++ [Seg.idx i]) x y).1 ++ (diffV (p ++ [Seg.idx i]) x y).2 ∨
          pt ∈ (diffList p (i + 1) xs ys).1 ++ (diffList p (i + 1) xs ys).2 := by
        simp only [List.mem_append] at h ⊢
        tauto
      rcases hmem with h2 | h2
      · obtain ⟨q', hq', hclean', _⟩ := IH x (by simp) y (by simp) (p ++ [Seg.idx i]) pt h2
        refine ⟨[Seg.idx i] ++ q', by simpa [List.append_assoc] using hq', by simp, ?_⟩
        intro hcx hcy
        rw [cleanSegsB_append]
        simp only [Bool.and_eq_true]
        constructor
        · simp [cleanSegsB, cleanSegB]
        · exact hclean' (cleanItems_mem _ hcx x (by simp)) (cleanItems_mem _ hcy y (by simp))
      · obtain ⟨q, hq, hne, hclean⟩ :=
          ih ys (fun a ha b hb => IH a (by simp [ha]) b (by simp [hb])) p (i + 1) pt h2
        refine ⟨q, hq, hne, ?_⟩
        intro hcx hcy
        rw [cleanItems] at hcx hcy
        simp only [Bool.and_eq_true] at hcx hcy
        exact hclean hcx.2 hcy.2

theorem diffObj_paths :
    ∀ (n : Nat) (fs gs : List (String × JValue)), fs.length + gs.length ≤ n →
      (∀ e ∈ fs, ∀ e' ∈ gs, PathsOK e.2 e'.2) →
      ∀ (p : List Seg) (pt : Patch),
        pt ∈ (diffObj p fs gs).1 ++ (diffObj p fs gs).2 →
        ∃ q, pt.path = p ++ q ∧ q ≠ [] ∧
          (cleanFields fs = true → cleanFields gs = true → cleanSegsB q = true) := by
  intro n
  induction n with
  | zero =>
    intro fs gs hlen IH p pt h
    cases fs with
    | cons f fs => simp at hlen
    | nil =>
      cases gs with
      | cons g gs => simp at hlen
      | nil => simp [diffObj] at h
  | succ n ih =>
    intro fs gs hlen IH p pt h
    cases fs with
    | nil =>
      cases gs with
      | nil => simp [diffObj] at h
      | cons g gs =>
        obtain ⟨k, v⟩ := g
        rw [diffObj] at h
        have hmem : pt = (⟨.add, p ++ [.key k], some v⟩ : Patch) ∨
            pt = (⟨.remove, p ++ [.key k], none⟩ : Patch) ∨
            pt ∈ (diffObj p [] gs).1 ++ (diffObj p [] gs).2 := by
          simp only [List.mem_append, List.mem_cons] at h ⊢
          tauto
        have hkey : ∀ hc : cleanFields ((k, v) :: gs) = true, cleanKeyB k = true := by
          intro hc
          rw [cleanFields] at hc
          simp only [Bool.and_eq_true] at hc
          exact hc.1.1
        rcases hmem with h2 | h2 | h2
        · refine ⟨[Seg.key k], by rw [h2], by simp, ?_⟩
          intro _ hcg
          simp [cleanSegsB, cleanSegB, hkey hcg]
        · refine ⟨[Seg.key k], by rw [h2], by simp, ?_⟩
          intro _ hcg
          simp [cleanSegsB, cleanSegB, hkey hcg]
        · obtain ⟨q, hq, hne, hclean⟩ := ih [] gs (by simp at hlen ⊢; omega)
            (by intro e he; simp at he) p pt h2
          refine ⟨q, hq, hne, ?_⟩
          intro hcf hcg
          rw [cleanFields] at hcg
          simp only [Bool.and_eq_true] at hcg
          exact hclean hcf hcg.2
    | cons f fs =>
      obtain ⟨k, v⟩ := f
      cases gs with
      | nil =>
        rw [diffObj] at h
        have hmem : pt = (⟨.remove, p ++ [.key k], none⟩ : Patch) ∨
            pt = (⟨.add, p ++ [.key k], some v⟩ : Patch) ∨
            pt ∈ (diffObj p fs []).1 ++ (diffObj p fs []).2 := by
          simp only [List.mem_append, List.mem_cons] at h ⊢
          tauto
        have hkey : ∀ hc : cleanFields ((k, v) :: fs) = true, cleanKeyB k = true := by
          intro hc
          rw [cleanFields] at hc
          simp only [Bool.and_eq_true] at hc
          exact hc.1.1
        rcases hmem with h2 | h2 | h2
        · refine ⟨[Seg.key k], by rw [h2], by simp, ?_⟩
          intro hcf _
          simp [cleanSegsB, cleanSegB, hkey hcf]
        · refine ⟨[Seg.key k], by rw [h2], by simp, ?_⟩
          intro hcf _
          simp [cleanSegsB, cleanSegB, hkey hcf]
        · obtain ⟨q, hq, hne, hclean⟩ := ih fs [] (by simp at hlen ⊢; omega)
            (by intro e he e' he'; simp at he') p pt h2
          refine ⟨q, hq, hne, ?_⟩
          intro hcf hcg
          rw [cleanFields] at hcf
          simp only [Bool.and_eq_true] at hcf
          exact hclean hcf.2 hcg
      | cons g gs =>
        obtain ⟨k', v'⟩ := g
        have hkeyf : ∀ hc : cleanFields ((k, v) :: fs) = true,
            cleanKeyB k = true ∧ cleanB v = true ∧ cleanFields fs = true := by
          intro hc
          rw [cleanFields] at hc
          simp only [Bool.and_eq_true] at hc
          exact ⟨hc.1.1, hc.1.2, hc.2⟩
        have hkeyg : ∀ hc : cleanFields ((k', v') :: gs) = true,
            cleanKeyB k' = true ∧ cleanB v' = true ∧ cleanFields gs = true := by
          intro hc
          rw [cleanFields] at hc
          simp only [Bool.and_eq_true] at hc
          exact ⟨hc.1.1, hc.1.2, hc.2⟩
        by_cases hk : k = k'
        · subst hk
          have hd1 : (diffObj p ((k, v) :: fs) ((k, v') :: gs)).1 =
              (diffV (p ++ [Seg.key k]) v v').1 ++ (diffObj p fs gs).1 := by
            rw [diffObj]; simp
          have hd2 : (diffObj p ((k, v) :: fs) ((k, v') :: gs)).2 =
              (diffV (p ++ [Seg.key k]) v v').2 ++ (diffObj p fs gs).2 := by
            rw [diffObj]; simp
          rw [hd1, hd2] at h
          have hmem : pt ∈ (diffV (p ++ [Seg.key k]) v v').1 ++ (diffV (p ++ [Seg.key k]) v v').2 ∨
              pt ∈ (diffObj p fs gs).1 ++ (diffObj p fs gs).2 := by
            simp only [List.mem_append] at h ⊢
            tauto
          rcases hmem with h2 | h2
          · obtain ⟨q', hq', hclean', _⟩ := IH (k, v) (by simp) (k, v') (by simp) (p ++ [Seg.key k]) pt h2
            refine ⟨[Seg.key k] ++ q', by simpa [List.append_assoc] using hq', by simp, ?_⟩
            intro hcf hcg
            rw [cleanSegsB_append]
            simp only [Bool.and_eq_true]
            refine ⟨?_, hclean' (hkeyf hcf).2.1 (hkeyg hcg).2.1⟩
            simp [cleanSegsB, cleanSegB, (hkeyf hcf).1]
          · obtain ⟨q, hq, hne, hclean⟩ := ih fs gs (by simp at hlen ⊢; omega)
              (fun e he e' he' => IH e (by simp [he]) e' (by simp [he'])) p pt h2
            exact ⟨q, hq, hne, fun hcf hcg => hclean (hkeyf hcf).2.2 (hkeyg hcg).2.2⟩
        · by_cases hk2 : k < k'
          · have hd1 : (diffObj p ((k, v) :: fs) ((k', v') :: gs)).1 =
                ⟨.remove, p ++ [.key k], none⟩ :: (diffObj p fs ((k', v') :: gs)).1 := by
              rw [diffObj]; simp [hk, hk2]
            have hd2 : (diffObj p ((k, v) :: fs) ((k', v') :: gs)).2 =
                ⟨.add, p ++ [.key k], some v⟩ :: (diffObj p fs ((k', v') :: gs)).2 := by
              rw [diffObj]; simp [hk, hk2]
            rw [hd1, hd2] at h
            have hmem : pt = (⟨.remove, p ++ [.key k], none⟩ : Patch) ∨
                pt = (⟨.add, p ++ [.key k], some v⟩ : Patch) ∨
                pt ∈ (diffObj p fs ((k', v') :: gs)).1 ++ (diffObj p fs ((k', v') :: gs)).2 := by
              simp only [List.mem_append, List.mem_cons] at h ⊢
              tauto
            rcases hmem with h2 | h2 | h2
            · exact ⟨[Seg.key k], by rw [h2], by simp,
                fun hcf _ => by simp [cleanSegsB, cleanSegB, (hkeyf hcf).1]⟩
            · exact ⟨[Seg.key k], by rw [h2], by simp,
                fun hcf _ => by simp [cleanSegsB, cleanSegB, (hkeyf hcf).1]⟩
            · obtain ⟨q, hq, hne, hclean⟩ := ih fs ((k', v') :: gs) (by simp at hlen ⊢; omega)
                (fun e he e' he' => IH e (by simp [he]) e' he') p pt h2
              exact ⟨q, hq, hne, fun hcf hcg => hclean (hkeyf hcf).2.2 hcg⟩
          · have hd1 : (diffObj p ((k, v) :: fs) ((k', v') :: gs)).1 =
                ⟨.add, p ++ [.key k'], some v'⟩ :: (diffObj p ((k, v) :: fs) gs).1 := by
              rw [diffObj]; simp [hk, hk2]
            have hd2 : (diffObj p ((k, v) :: fs) ((k', v') :: gs)).2 =
                ⟨.remove, p ++ [.key k'], none⟩ :: (diffObj p ((k, v) :: fs) gs).2 := by
              rw [diffObj]; simp [hk, hk2]
            rw [hd1, hd2] at h
            have hmem : pt = (⟨.add, p ++ [.key k'], some v'⟩ : Patch) ∨
                pt = (⟨.remove, p ++ [.key k'], none⟩ : Patch) ∨
                pt ∈ (diffObj p ((k, v) :: fs) gs).1 ++ (diffObj p ((k, v) :: fs) gs).2 := by
              simp only [List.mem_append, List.mem_cons] at h ⊢
              tauto
            rcases hmem with h2 | h2 | h2
            · exact ⟨[Seg.key k'], by rw [h2], by simp,
                fun _ hcg => by simp [cleanSegsB, cleanSegB, (hkeyg hcg).1]⟩
            · exact ⟨[Seg.key k'], by rw [h2], by simp,
                fun _ hcg => by simp [cleanSegsB, cleanSegB, (hkeyg hcg).1]⟩
            · obtain ⟨q, hq, hne, hclean⟩ := ih ((k, v) :: fs) gs (by simp at hlen ⊢; omega)
                (fun e he e' he' => IH e he e' (by simp [he'])) p pt h2
              exact ⟨q, hq, hne, fun hcf hcg => hclean hcf (hkeyg hcg).2.2⟩

theorem diff_paths_main : ∀ base modified : JValue, PathsOK base modified := by
  intro base modified
  induction base, modified using JValue.pairInduction with
  | step a b IH =>
    intro p pt h
    by_cases hab : a = b
    · subst hab
      rw [diffV_self] at h
      simp at h
    · have hjeq : jeq a b = false := by
        cases hj : jeq a b
        · rfl
        · exact absurd ((jeq_iff_eq a b).mp hj) hab
      cases hcp : containerPair a b with
      | false =>
        rw [diffV_replace a b p hjeq hcp] at h
        simp only [List.mem_append, List.mem_cons, List.mem_singleton] at h
        have hpath : pt.path = p := by
          rcases h with (h2 | h2) | (h2 | h2) <;> first | (rw [h2]) | simp at h2
        exact ⟨[], by simpa using hpath, by simp [cleanSegsB], by simp [hcp]⟩
      | true =>
        rcases containerPair_cases a b hcp with ⟨xs, ys, rfl, rfl⟩ | ⟨fs, gs, rfl, rfl⟩
        · have hIHe : ∀ x ∈ xs, ∀ y ∈ ys, PathsOK x y := fun x hx y hy =>
            IH x y (by have h1 := sizeOf_mem_arr hx; have h2 := sizeOf_mem_arr hy; omega)
          by_cases hlen : xs.length < ys.length
          · have hd1 : (diffV p (.arr xs) (.arr ys)).1 =
                (diffList p 0 xs ys).1 ++ addsFrom p xs.length (ys.drop xs.length) := by
              rw [diffV.eq_def]; simp [hjeq, hlen]
            have hd2 : (diffV p (.arr xs) (.arr ys)).2 =
                (diffList p 0 xs ys).2 ++ remsDesc p xs.length (ys.length - xs.length) := by
              rw [diffV.eq_def]; simp [hjeq, hlen]
            rw [hd1, hd2] at h
            have hmem : pt ∈ (diffList p 0 xs ys).1 ++ (diffList p 0 xs ys).2 ∨
                pt ∈ addsFrom p xs.length (ys.drop xs.length) ∨
                pt ∈ remsDesc p xs.length (ys.length - xs.length) := by
              simp only [List.mem_append] at h ⊢
              tauto
            rcases hmem with h2 | h2 | h2
            · obtain ⟨q, hq, hne, hclean⟩ := diffList_paths xs ys hIHe p 0 pt h2
              exact ⟨q, hq, fun hca hcb => hclean (clean_arr xs hca) (clean_arr ys hcb),
                fun _ => hne⟩
            · obtain ⟨i, hq⟩ := addsFrom_paths p (ys.drop xs.length) xs.length pt h2
              exact ⟨[Seg.idx i], hq, fun _ _ => by simp [cleanSegsB, cleanSegB],
                fun _ => by simp⟩
            · obtain ⟨i, hq⟩ := remsDesc_paths p xs.length (ys.length - xs.length) pt h2
              exact ⟨[Seg.idx i], hq, fun _ _ => by simp [cleanSegsB, cleanSegB],
                fun _ => by simp⟩
          · have hd1 : (diffV p (.arr xs) (.arr ys)).1 =
                (diffList p 0 xs ys).1 ++ remsDesc p ys.length (xs.length - ys.length) := by
              rw [diffV.eq_def]; simp [hjeq, hlen]
            have hd2 : (diffV p (.arr xs) (.arr ys)).2 =
                (diffList p 0 xs ys).2 ++ addsFrom p ys.length (xs.drop ys.length) := by
              rw [diffV.eq_def]; simp [hjeq, hlen]
            rw [hd1, hd2] at h
            have hmem : pt ∈ (diffList p 0 xs ys).1 ++ (diffList p 0 xs ys).2 ∨
                pt ∈ remsDesc p ys.length (xs.length - ys.length) ∨
                pt ∈ addsFrom p ys.length (xs.drop ys.length) := by
              simp only [List.mem_append] at h ⊢
              tauto
            rcases hmem with h2 | h2 | h2
            · obtain ⟨q, hq, hne, hclean⟩ := diffList_paths xs ys hIHe p 0 pt h2
              exact ⟨q, hq, fun hca hcb => hclean (clean_arr xs hca) (clean_arr ys hcb),
                fun _ => hne⟩
            · obtain ⟨i, hq⟩ := remsDesc_paths p ys.length (xs.length - ys.length) pt h2
              exact ⟨[Seg.idx i], hq, fun _ _ => by simp [cleanSegsB, cleanSegB],
                fun _ => by simp⟩
            · obtain ⟨i, hq⟩ := addsFrom_paths p (xs.drop ys.length) ys.length pt h2
              exact ⟨[Seg.idx i], hq, fun _ _ => by simp [cleanSegsB, cleanSegB],
                fun _ => by simp⟩
        · have hd1 : (diffV p (.obj fs) (.obj gs)).1 = (diffObj p fs gs).1 := by
            rw [diffV.eq_def]; simp [hjeq]
          have hd2 : (diffV p (.obj fs) (.obj gs)).2 = (diffObj p fs gs).2 := by
            rw [diffV.eq_def]; simp [hjeq]
          rw [hd1, hd2] at h
          obtain ⟨q, hq, hne, hclean⟩ := diffObj_paths (fs.length + gs.length) fs gs
            (le_refl _)
            (fun e he e' he' => IH e.2 e'.2
              (by have h1 := sizeOf_mem_obj he; have h2 := sizeOf_mem_obj he'; omega))
            p pt h
          exact ⟨q, hq, fun hca hcb => hclean (clean_obj fs hca) (clean_obj gs hcb),
            fun _ => hne⟩

/-! ### Serialization: the emitted path string parses back to the segments -/

theorem digitChar_toNat (d : Nat) (h : d < 10) : (digitChar d).toNat = 48 + d := by
  interval_cases d <;> decide

theorem natChars_spec : ∀ n : Nat,
    (∀ c ∈ natChars n, isDigitC c = true) ∧ natChars n ≠ [] ∧
    (∀ a : Nat, (natChars n).foldl (fun a c => a * 10 + (c.toNat - 48)) a
        = a * 10 ^ (natChars n).length + n) := by
  intro n
  induction n using Nat.strong_induction_on with
  | _ n ih =>
    by_cases h : n < 10
    · rw [natChars]
      simp only [dif_pos h]
      refine ⟨?_, by simp, ?_⟩
      · intro c hc
        simp only [List.mem_singleton] at hc
        rw [hc]
        simp only [isDigitC, digitChar_toNat n h, Bool.and_eq_true, decide_eq_true_eq]
        omega
      · intro a
        simp only [List.foldl_cons, List.foldl_nil, List.length_singleton]
        rw [digitChar_toNat n h]
        omega
    · rw [natChars]
      simp only [dif_neg h]
      have hlt : n / 10 < n := Nat.div_lt_self (by omega) (by omega)
      obtain ⟨hdig, hne, hfold⟩ := ih (n / 10) hlt
      have hmod : n % 10 < 10 := Nat.mod_lt _ (by omega)
      refine ⟨?_, by simp, ?_⟩
      · intro c hc
        rcases List.mem_append.mp hc with h2 | h2
        · exact hdig c h2
        · simp only [List.mem_singleton] at h2
          rw [h2]
          simp only [isDigitC, digitChar_toNat _ hmod, Bool.and_eq_true, decide_eq_true_eq]
          omega
      · intro a
        rw [List.foldl_append]
        simp only [List.foldl_cons, List.foldl_nil]
        rw [hfold a, digitChar_toNat _ hmod, List.length_append]
        simp only [List.length_singleton]
        have harith : (a * 10 ^ (natChars (n / 10)).length + n / 10) * 10 + (48 + n % 10 - 48)
            = a * (10 ^ (natChars (n / 10)).length * 10) + (10 * (n / 10) + n % 10) := by
          have : 48 + n % 10 - 48 = n % 10 := by omega
          rw [this]
          ring
        rw [harith, Nat.div_add_mod, ← pow_succ]

theorem parseNatTok_renderNat (n : Nat) : parseNatTok (renderNat n) = some n := by
  obtain ⟨hdig, hne, hfold⟩ := natChars_spec n
  have hdata : (renderNat n).data = natChars n := rfl
  rw [parseNatTok, hdata]
  rw [if_pos]
  · have h0 := hfold 0
    rw [zero_mul, zero_add] at h0
    rw [h0]
  · simp only [Bool.and_eq_true, Bool.not_eq_true']
    constructor
    · rw [List.isEmpty_eq_false_iff_exists_mem]
      cases hcs : natChars n with
      | nil => exact absurd hcs hne
      | cons c cs => exact ⟨c, by simp⟩
    · rw [List.all_eq_true]
      exact hdig

theorem isDigitC_not_special (c : Char) (h : isDigitC c = true) :
    ¬ c = '/' ∧ ¬ c = '~' ∧ ¬ c = '-' := by
  simp only [isDigitC, Bool.and_eq_true, decide_eq_true_eq] at h
  refine ⟨?_, ?_, ?_⟩ <;> intro hc <;> rw [hc] at h <;> revert h <;> decide

theorem renderNat_ne_dash (n : Nat) : ¬ renderNat n = "-" := by
  intro h
  obtain ⟨hdig, hne, _⟩ := natChars_spec n
  have hdata : natChars n = ['-'] := congrArg String.data h
  have := hdig '-' (by rw [hdata]; simp)
  exact absurd this (by decide)

theorem strData_append (s t : String) : (s ++ t).data = s.data ++ t.data := by
  cases s
  cases t
  rfl

theorem splitSlash_noslash : ∀ cs : List Char, (∀ c ∈ cs, ¬ c = '/') →
    splitSlash cs = [cs] := by
  intro cs
  induction cs with
  | nil => intro _; rfl
  | cons c rest ih =>
    intro h
    have hc : ¬ c = '/' := h c (by simp)
    rw [splitSlash, if_neg hc, ih fun c' hc' => h c' (by simp [hc'])]

theorem splitSlash_append : ∀ (t cs : List Char), (∀ c ∈ t, ¬ c = '/') →
    splitSlash (t ++ '/' :: cs) = t :: splitSlash cs := by
  intro t
  induction t with
  | nil =>
    intro cs _
    simp only [List.nil_append]
    rw [splitSlash, if_pos rfl]
  | cons c t ih =>
    intro cs h
    have hc : ¬ c = '/' := h c (by simp)
    rw [List.cons_append, splitSlash, if_neg hc, ih cs fun c' hc' => h c' (by simp [hc'])]

theorem replTilde1_id : ∀ cs : List Char, (∀ c ∈ cs, ¬ c = '~') → replTilde1 cs = cs := by
  intro cs
  induction cs with
  | nil => intro _; rfl
  | cons c rest ih =>
    intro h
    have hc : ¬ c = '~' := h c (by simp)
    have hrest := ih fun c' hc' => h c' (by simp [hc'])
    rw [replTilde1.eq_def]
    split
    · rename_i heq
      exact List.noConfusion heq
    · rename_i rest' heq
      injection heq with h1 h2
      exact absurd h1 hc
    · rename_i c' rest' heq
      injection heq with h1 h2
      rw [← h1, ← h2, hrest]

theorem replTilde0_id : ∀ cs : List Char, (∀ c ∈ cs, ¬ c = '~') → replTilde0 cs = cs := by
  intro cs
  induction cs with
  | nil => intro _; rfl
  | cons c rest ih =>
    intro h
    have hc : ¬ c = '~' := h c (by simp)
    have hrest := ih fun c' hc' => h c' (by simp [hc'])
    rw [replTilde0.eq_def]
    split
    · rename_i heq
      exact List.noConfusion heq
    · rename_i rest' heq
      injection heq with h1 h2
      exact absurd h1 hc
    · rename_i c' rest' heq
      injection heq with h1 h2
      rw [← h1, ← h2, hrest]

theorem unescapeTok_id (cs : List Char) (h : ∀ c ∈ cs, ¬ c = '~') : unescapeTok cs = cs := by
  rw [unescapeTok, replTilde1_id cs h, replTilde0_id cs h]

theorem cleanKeyB_chars (k : String) (h : cleanKeyB k = true) :
    ∀ c ∈ k.data, ¬ c = '/' ∧ ¬ c = '~' := by
  rw [cleanKeyB, List.all_eq_true] at h
  intro c hc
  have := h c hc
  simp only [Bool.or_eq_true, beq_iff_eq, Bool.not_eq_true', Bool.or_eq_false_iff] at this
  exact ⟨by simpa using this.1, by simpa using this.2⟩

theorem segStr_clean (sg : Seg) (h : cleanSegB sg = true) :
    ∀ c ∈ (segStr sg).data, ¬ c = '/' ∧ ¬ c = '~' := by
  cases sg with
  | key k => exact cleanKeyB_chars k h
  | idx i =>
    intro c hc
    have hd : isDigitC c = true := (natChars_spec i).1 c hc
    have := isDigitC_not_special c hd
    exact ⟨this.1, this.2.1⟩


theorem joinSlash_split : ∀ ts : List String, ts ≠ [] →
    (∀ t ∈ ts, ∀ c ∈ t.data, ¬ c = '/') →
    splitSlash (joinSlash ts).data = ts.map String.data := by
  intro ts
  induction ts with
  | nil => intro h _; exact absurd rfl h
  | cons t ts ih =>
    intro _ h
    cases ts with
    | nil =>
      rw [joinSlash]
      rw [splitSlash_noslash t.data (h t (by simp))]
      rfl
    | cons t2 ts2 =>
      have hd : joinSlash (t :: t2 :: ts2) = t ++ "/" ++ joinSlash (t2 :: ts2) := by
        rw [joinSlash]
        simp
      rw [hd, strData_append, strData_append]
      have hslash : ("/" : String).data = ['/'] := rfl
      rw [hslash, List.append_assoc, List.singleton_append]
      rw [splitSlash_append t.data _ (h t (by simp))]
      rw [ih (by simp) fun t' ht' c hc => h t' (by simp [ht']) c hc]
      rfl

theorem parsePointer_pathToString (segs : List Seg) (hne : segs ≠ [])
    (hclean : cleanSegsB segs = true) :
    parsePointer (pathToString segs) = some (segs.map segStr) := by
  have hcleans : ∀ sg ∈ segs, ∀ c ∈ (segStr sg).data, ¬ c = '/' ∧ ¬ c = '~' := by
    intro sg hsg
    rw [cleanSegsB, List.all_eq_true] at hclean
    exact segStr_clean sg (hclean sg hsg)
  have hmapne : segs.map segStr ≠ [] := by
    cases segs with
    | nil => exact absurd rfl hne
    | cons a l => simp
  have hnoslash : ∀ t ∈ segs.map segStr, ∀ c ∈ t.data, ¬ c = '/' := by
    intro t ht c hc
    obtain ⟨sg, hsg, rfl⟩ := List.mem_map.mp ht
    exact (hcleans sg hsg c hc).1
  rw [parsePointer, pathToString]
  rw [strData_append]
  have hslash : ("/" : String).data = ['/'] := rfl
  rw [hslash, List.singleton_append]
  have hsplit : splitSlash ('/' :: (joinSlash (segs.map segStr)).data) =
      [] :: splitSlash (joinSlash (segs.map segStr)).data := by
    rw [splitSlash, if_pos rfl]
  rw [hsplit, joinSlash_split (segs.map segStr) hmapne hnoslash]
  show some (((segs.map segStr).map String.data).map fun cs => String.mk (unescapeTok cs)) =
    some (segs.map segStr)
  congr 1
  rw [List.map_map]
  conv_rhs => rw [← List.map_id (segs.map segStr)]
  refine List.map_congr_left ?_
  intro t ht
  obtain ⟨sg, hsg, rfl⟩ := List.mem_map.mp ht
  show String.mk (unescapeTok (segStr sg).data) = segStr sg
  rw [unescapeTok_id _ fun c hc => (hcleans sg hsg c hc).2]

/-! ### Simulation: the string-level applier mirrors successful structured
application -/

theorem addChild_sim (parent : JValue) (sg : Seg) (w c : JValue)
    (h : addChildS parent sg w = some c) : addChildT parent (segStr sg) w = some c := by
  cases parent with
  | obj fs =>
    cases sg with
    | key k =>
      rw [addChildS] at h
      rw [addChildT, segStr]
      exact h
    | idx i => simp [addChildS] at h
  | arr xs =>
    cases sg with
    | key k => simp [addChildS] at h
    | idx i =>
      rw [addChildS] at h
      rw [addChildT, segStr]
      rw [if_neg (renderNat_ne_dash i), parseNatTok_renderNat]
      simpa using h
  | null => simp [addChildS] at h
  | bool b => simp [addChildS] at h
  | num n => simp [addChildS] at h
  | str t => simp [addChildS] at h

theorem removeChild_sim (parent : JValue) (sg : Seg) (c : JValue)
    (h : removeChildS parent sg = some c) : removeChildT parent (segStr sg) = some c := by
  cases parent with
  | obj fs =>
    cases sg with
    | key k =>
      rw [removeChildS] at h
      rw [removeChildT, segStr]
      exact h
    | idx i => simp [removeChildS] at h
  | arr xs =>
    cases sg with
    | key k => simp [removeChildS] at h
    | idx i =>
      rw [removeChildS] at h
      rw [removeChildT, segStr, parseNatTok_renderNat]
      simpa using h
  | null => simp [removeChildS] at h
  | bool b => simp [removeChildS] at h
  | num n => simp [removeChildS] at h
  | str t => simp [removeChildS] at h

theorem modToks_sim : ∀ (segs : List Seg) (v r : JValue) (f g : JValue → Option JValue),
    (∀ c r', f c = some r' → g c = some r') →
    modSegs v segs f = some r → modToks v (segs.map segStr) g = some r := by
  intro segs
  induction segs with
  | nil =>
    intro v r f g hfg h
    rw [modSegs] at h
    rw [List.map_nil, modToks]
    exact hfg v r h
  | cons sg p ih =>
    intro v r f g hfg h
    cases v with
    | obj fs =>
      cases sg with
      | key k =>
        rw [modSegs] at h
        cases hg : getKey fs k with
        | none => rw [hg] at h; simp at h
        | some c =>
          rw [hg] at h
          simp only [Option.some_bind] at h
          cases hm : modSegs c p f with
          | none => rw [hm] at h; simp at h
          | some r' =>
            rw [hm] at h
            simp only [Option.map_some'] at h
            rw [List.map_cons, modToks, segStr, hg]
            simp only [Option.some_bind]
            rw [ih c r' f g hfg hm]
            simpa using h
      | idx i =>
        rw [modSegs.eq_def] at h
        simp at h
    | arr xs =>
      cases sg with
      | key k =>
        rw [modSegs.eq_def] at h
        simp at h
      | idx i =>
        rw [modSegs] at h
        cases hg : xs[i]? with
        | none => rw [hg] at h; simp at h
        | some c =>
          rw [hg] at h
          simp only [Option.some_bind] at h
          cases hm : modSegs c p f with
          | none => rw [hm] at h; simp at h
          | some r' =>
            rw [hm] at h
            simp only [Option.map_some'] at h
            rw [List.map_cons, modToks, segStr, parseNatTok_renderNat]
            simp only [Option.some_bind]
            rw [hg]
            simp only [Option.some_bind]
            rw [ih c r' f g hfg hm]
            simpa using h
    | null => rw [modSegs.eq_def] at h; simp at h
    | bool b => rw [modSegs.eq_def] at h; simp at h
    | num n => rw [modSegs.eq_def] at h; simp at h
    | str t => rw [modSegs.eq_def] at h; simp at h

theorem applyOp_sim (pt : Patch) (v w : JValue)
    (h : applyPatchS v pt = some w) (hcl : cleanSegsB pt.path = true) (hne : pt.path ≠ []) :
    applyOperation v (patchToOperation pt) = .ok w := by
  obtain ⟨op, path, val⟩ := pt
  have hparse : parsePointer (pathToString path) = some (path.map segStr) :=
    parsePointer_pathToString path hne hcl
  cases op with
  | replace =>
    rw [applyPatchS] at h
    cases val with
    | none => simp at h
    | some w0 =>
      simp only [Option.some_bind] at h
      rw [patchToOperation, applyOperation]
      simp only [POp.toStr, hparse]
      have hm := modToks_sim path v w (fun _ => some w0) (fun _ => some w0)
        (fun _ _ hr => hr) h
      rw [hm]
      rfl
  | add =>
    rw [applyPatchS] at h
    cases val with
    | none => simp at h
    | some w0 =>
      simp only [Option.some_bind] at h
      cases hlast : path.getLast? with
      | none => rw [hlast] at h; simp at h
      | some sg =>
        rw [hlast] at h
        have h' : modSegs v path.dropLast (fun parent => addChildS parent sg w0) = some w := h
        rw [patchToOperation, applyOperation]
        simp only [POp.toStr, hparse]
        have hlast' : (path.map segStr).getLast? = some (segStr sg) := by
          rw [List.getLast?_map, hlast]
          rfl
        rw [hlast']
        have hdrop : (path.map segStr).dropLast = path.dropLast.map segStr :=
          (List.map_dropLast segStr path).symm
        rw [hdrop]
        have hm := modToks_sim path.dropLast v w
          (fun parent => addChildS parent sg w0)
          (fun parent => addChildT parent (segStr sg) w0)
          (fun c r' hr => addChild_sim c sg w0 r' hr) h'
        show ofOpt (modToks v (List.map segStr path.dropLast)
            fun parent => addChildT parent (segStr sg) w0) = Except.ok w
        rw [hm]
        rfl
  | remove =>
    rw [applyPatchS] at h
    cases hlast : path.getLast? with
    | none => rw [hlast] at h; simp at h
    | some sg =>
      rw [hlast] at h
      have h' : modSegs v path.dropLast (fun parent => removeChildS parent sg) = some w := h
      rw [patchToOperation, applyOperation]
      simp only [POp.toStr, hparse]
      have hlast' : (path.map segStr).getLast? = some (segStr sg) := by
        rw [List.getLast?_map, hlast]
        rfl
      rw [hlast']
      have hdrop : (path.map segStr).dropLast = path.dropLast.map segStr :=
        (List.map_dropLast segStr path).symm
      rw [hdrop]
      have hm := modToks_sim path.dropLast v w
        (fun parent => removeChildS parent sg)
        (fun parent => removeChildT parent (segStr sg))
        (fun c r' hr => removeChild_sim c sg r' hr) h'
      show ofOpt (modToks v (List.map segStr path.dropLast)
          fun parent => removeChildT parent (segStr sg)) = Except.ok w
      rw [hm]
      rfl

theorem applyPatch_sim : ∀ (pts : List Patch) (v w : JValue),
    applyPatchesS v pts = some w →
    (∀ pt ∈ pts, cleanSegsB pt.path = true ∧ pt.path ≠ []) →
    applyPatch v (pts.map patchToOperation) = (w, pts.map fun _ => none) := by
  intro pts
  induction pts with
  | nil =>
    intro v w h _
    rw [applyPatchesS] at h
    injection h with h
    rw [h]
    rfl
  | cons pt pts ih =>
    intro v w h hcl
    rw [applyPatchesS] at h
    cases hp : applyPatchS v pt with
    | none => rw [hp] at h; simp at h
    | some v1 =>
      rw [hp] at h
      simp only [Option.some_bind] at h
      have hop := applyOp_sim pt v v1 hp (hcl pt (by simp)).1 (hcl pt (by simp)).2
      rw [List.map_cons, applyPatch, hop]
      show ((applyPatch v1 (pts.map patchToOperation)).1,
          none :: (applyPatch v1 (pts.map patchToOperation)).2) = (w, (pt :: pts).map fun _ => none)
      rw [ih v1 w h fun pt' hpt' => hcl pt' (by simp [hpt'])]
      rfl

/-- C2: on the state `{"items": ["a","b"]}`, the "append c" recipe records
exactly one forward `add` at `/items/2` with value `"c"` and one inverse
`remove` at `/items/2`; committing yields `{"items": ["a","b","c"]}`, undo
restores `{"items": ["a","b"]}`, and redo yields `{"items": ["a","b","c"]}`
again. -/
theorem C2_concrete_scenario :
    recordOperations appendC itemsAB () = .ok appendCmd ∧
    createCommandMutation appendC ⟨itemsAB, [], []⟩ () = .ok ⟨itemsABC, [appendCmd], []⟩ ∧
    UNDO ⟨itemsABC, [appendCmd], []⟩ = ⟨itemsAB, [], [appendCmd]⟩ ∧
    REDO ⟨itemsAB, [], [appendCmd]⟩ = ⟨itemsABC, [appendCmd], []⟩ := by
  refine ⟨?_, ?_, ?_, ?_⟩ <;>
    simp [recordOperations, createCommandMutation, UNDO, REDO, Except.map,
      itemsAB, itemsABC, appendC, appendCmd,
      jeq, jeqList, jeqFields, diffV, diffList, diffObj, addsFrom, remsDesc,
      patchToOperation, pathToString, joinSlash, segStr, renderNat, natChars, digitChar,
      POp.toStr, applyPatch, applyOperation, parsePointer, splitSlash, unescapeTok,
      replTilde0, replTilde1, parseNatTok, isDigitC, modToks, getToks, getTok, getKey,
      setKey, removeKey, addChildT, removeChildT, insAt, removeAtL, ofOpt]

/-- C4: a recipe failure during recording propagates the error synchronously;
no command and no successor state are produced, so the original state (data
and both stacks) stands untouched. -/
theorem C4_recipe_failure {P : Type} (recipe : JValue → P → Except String JValue)
    (s : UndoRedoState) (payload : P) (e : String)
    (h : recipe s.data payload = .error e) :
    createCommandMutation recipe s payload = .error e := by
  simp [createCommandMutation, recordOperations, h, Except.map]

theorem C4_witness :
    createCommandMutation (fun _ (_ : Unit) => .error "recipe failed") ⟨.null, [], []⟩ () =
      .error "recipe failed" :=
  C4_recipe_failure (fun _ (_ : Unit) => .error "recipe failed") ⟨.null, [], []⟩ () "recipe failed" rfl

/-- C5: every successful recorded commit leaves the redo stack empty. -/
theorem C5_redo_invalidation {P : Type} (recipe : JValue → P → Except String JValue)
    (s s' : UndoRedoState) (payload : P)
    (h : createCommandMutation recipe s payload = .ok s') :
    s'.redoCommands = [] := by
  unfold createCommandMutation at h
  cases hr : recordOperations recipe s.data payload with
  | error e => rw [hr] at h; simp [Except.map] at h
  | ok c =>
    rw [hr] at h
    simp only [Except.map, Except.ok.injEq] at h
    rw [← h]

theorem C5_witness :
    UndoRedoState.redoCommands ⟨.null, [⟨[], []⟩], []⟩ = [] :=
  C5_redo_invalidation (fun d (_ : Unit) => .ok d) ⟨.null, [], [⟨[], []⟩]⟩
    ⟨.null, [⟨[], []⟩], []⟩ ()
    (by simp [createCommandMutation, recordOperations, Except.map, diffV_self, applyPatch])

/-- C6: `UNDO` on an empty undo stack is the identity; otherwise it pops the
last command, applies its inverse script to the data and appends the command
to the redo stack.  `REDO` is symmetric with the forward script. -/
theorem C6_undo_redo_semantics (s : UndoRedoState) :
    (s.undoCommands = [] → UNDO s = s) ∧
    (∀ rest c, s.undoCommands = rest ++ [c] →
      UNDO s = ⟨(applyPatch s.data c.undoOperation).1, rest, s.redoCommands ++ [c]⟩) ∧
    (s.redoCommands = [] → REDO s = s) ∧
    (∀ rest c, s.redoCommands = rest ++ [c] →
      REDO s = ⟨(applyPatch s.data c.doOperation).1, s.undoCommands ++ [c], rest⟩) := by
  refine ⟨?_, ?_, ?_, ?_⟩
  · intro h; simp [UNDO, h]
  · intro rest c h; simp [UNDO, h]
  · intro h; simp [REDO, h]
  · intro rest c h; simp [REDO, h]

theorem C6_witness :
    (UNDO ⟨.null, [], []⟩ = ⟨.null, [], []⟩) ∧
    (UNDO ⟨.null, [⟨[], []⟩], []⟩ =
      ⟨(applyPatch JValue.null []).1, [], [] ++ [⟨[], []⟩]⟩) ∧
    (REDO ⟨.null, [], []⟩ = ⟨.null, [], []⟩) ∧
    (REDO ⟨.null, [], [⟨[], []⟩]⟩ =
      ⟨(applyPatch JValue.null []).1, [] ++ [⟨[], []⟩], []⟩) :=
  ⟨(C6_undo_redo_semantics ⟨.null, [], []⟩).1 rfl,
   (C6_undo_redo_semantics ⟨.null, [⟨[], []⟩], []⟩).2.1 [] ⟨[], []⟩ rfl,
   (C6_undo_redo_semantics ⟨.null, [], []⟩).2.2.1 rfl,
   (C6_undo_redo_semantics ⟨.null, [], [⟨[], []⟩]⟩).2.2.2 [] ⟨[], []⟩ rfl⟩

/-- C7: a recipe that leaves the state unchanged records a command with empty
scripts, which is still pushed onto the undo stack while the redo stack is
cleared. -/
theorem C7_empty_diff {P : Type} (recipe : JValue → P → Except String JValue)
    (s : UndoRedoState) (payload : P) (h : recipe s.data payload = .ok s.data) :
    createCommandMutation recipe s payload =
      .ok ⟨s.data, s.undoCommands ++ [⟨[], []⟩], []⟩ := by
  simp [createCommandMutation, recordOperations, h, Except.map, diffV_self, applyPatch]

theorem C7_witness :
    createCommandMutation (fun d (_ : Unit) => .ok d) ⟨.num 5, [], [⟨[], []⟩]⟩ () =
      .ok ⟨.num 5, [] ++ [⟨[], []⟩], []⟩ :=
  C7_empty_diff (fun d (_ : Unit) => .ok d) ⟨.num 5, [], [⟨[], []⟩]⟩ () rfl

/-- C9: `CLEAR_COMMANDS` empties both stacks and leaves the data tree — every
part of the live state other than the two stacks — unchanged. -/
theorem C9_clear_frame (s : UndoRedoState) :
    (CLEAR_COMMANDS s).undoCommands = [] ∧ (CLEAR_COMMANDS s).redoCommands = [] ∧
    (CLEAR_COMMANDS s).data = s.data :=
  ⟨rfl, rfl, rfl⟩

/-- C10: every recorded operation's path is `/` followed by the raw segments
joined with `/` (no RFC 6901 escaping), the `value` field is copied verbatim
(present even for removes) and no `from` field is ever emitted; consequently
the distinct segment lists `["a/b"]` and `["a","b"]` serialize to the same
path string. -/
theorem C10_operation_shape :
    (∀ patch : Patch,
      (patchToOperation patch).path = "/" ++ joinSlash (patch.path.map segStr) ∧
      (patchToOperation patch).value = patch.value ∧
      (patchToOperation patch).fromPath = none) ∧
    (patchToOperation ⟨.replace, [.key "a/b"], some .null⟩).path =
      (patchToOperation ⟨.replace, [.key "a", .key "b"], some .null⟩).path ∧
    [Seg.key "a/b"] ≠ [Seg.key "a", Seg.key "b"] := by
  refine ⟨fun patch => ⟨rfl, rfl, rfl⟩, ?_, by simp⟩
  simp [patchToOperation, pathToString, joinSlash, segStr]


/-- C8: starting from empty stacks, committing A, committing B, undoing, then
committing C leaves the undo stack `[A, C]` and an empty redo stack. -/
theorem C8_stack_bookkeeping {P : Type}
    (r1 r2 r3 : JValue → P → Except String JValue) (p1 p2 p3 : P)
    (s0 s1 s2 s4 : UndoRedoState) (A B C : Command)
    (h0u : s0.undoCommands = [])
    (hA : recordOperations r1 s0.data p1 = .ok A)
    (h1 : createCommandMutation r1 s0 p1 = .ok s1)
    (hB : recordOperations r2 s1.data p2 = .ok B)
    (h2 : createCommandMutation r2 s1 p2 = .ok s2)
    (hC : recordOperations r3 (UNDO s2).data p3 = .ok C)
    (h4 : createCommandMutation r3 (UNDO s2) p3 = .ok s4) :
    s4.undoCommands = [A, C] ∧ s4.redoCommands = [] := by
  unfold createCommandMutation at h1 h2 h4
  rw [hA] at h1
  simp only [Except.map, Except.ok.injEq] at h1
  subst h1
  rw [hB] at h2
  simp only [Except.map, Except.ok.injEq] at h2
  subst h2
  rw [hC] at h4
  simp only [Except.map, Except.ok.injEq] at h4
  subst h4
  simp [UNDO, h0u]

theorem C8_witness :
    UndoRedoState.undoCommands ⟨.null, [⟨[], []⟩, ⟨[], []⟩], []⟩ = [⟨[], []⟩, ⟨[], []⟩] ∧
    UndoRedoState.redoCommands ⟨.null, [⟨[], []⟩, ⟨[], []⟩], []⟩ = [] :=
  C8_stack_bookkeeping (fun d (_ : Unit) => .ok d) (fun d _ => .ok d) (fun d _ => .ok d)
    () () ()
    ⟨.null, [], []⟩ ⟨.null, [⟨[], []⟩], []⟩ ⟨.null, [⟨[], []⟩, ⟨[], []⟩], []⟩
    ⟨.null, [⟨[], []⟩, ⟨[], []⟩], []⟩ ⟨[], []⟩ ⟨[], []⟩ ⟨[], []⟩
    rfl
    (by simp [recordOperations, Except.map, diffV_self])
    (by simp [createCommandMutation, recordOperations, Except.map, diffV_self, applyPatch])
    (by simp [recordOperations, Except.map, diffV_self, applyPatch])
    (by simp [createCommandMutation, recordOperations, Except.map, diffV_self, applyPatch])
    (by simp [UNDO, recordOperations, Except.map, diffV_self, applyPatch])
    (by simp [UNDO, createCommandMutation, recordOperations, Except.map, diffV_self, applyPatch])

/-- C3 counterexample: a command whose inverse operation targets a missing
path.  The undo application fails (`some .missing` in the ignored result
list), yet no error state arises: `UNDO` completes, moves the command to the
redo stack, and the engine still permits — and performs — a subsequent redo,
contradicting the claim that the failure is raised as a fatal CorruptHistory
error refusing further undo/redo. -/
theorem C3_counterexample :
    (applyPatch (JValue.obj []) nopeCmd.undoOperation).2 = [some ApplyError.missing] ∧
    UNDO ⟨.obj [], [nopeCmd], []⟩ = ⟨.obj [], [], [nopeCmd]⟩ ∧
    CAN_REDO (UNDO ⟨.obj [], [nopeCmd], []⟩) = true ∧
    REDO (UNDO ⟨.obj [], [nopeCmd], []⟩) = ⟨.obj [("nope", .null)], [nopeCmd], []⟩ := by
  refine ⟨?_, ?_, ?_, ?_⟩ <;>
    simp [UNDO, REDO, CAN_REDO, nopeCmd, applyPatch, applyOperation, parsePointer,
      splitSlash, unescapeTok, replTilde0, replTilde1, parseNatTok, isDigitC, modToks,
      getToks, getTok, getKey, setKey, removeKey, addChildT, removeChildT, insAt,
      removeAtL, ofOpt]

/-- C3 (amended): an operation that fails its precondition during undo or redo
is silently skipped — it leaves the document unchanged and is reported only in
the per-operation result list, which the engine discards; the command is still
transferred to the other stack and further undo/redo remain available.  No
CorruptHistory error exists. -/
theorem C3_amended_silent_skip (s : UndoRedoState) (rest : List Command) (c : Command)
    (h : s.undoCommands = rest ++ [c]) :
    UNDO s = ⟨(applyPatch s.data c.undoOperation).1, rest, s.redoCommands ++ [c]⟩ ∧
    (∀ (v : JValue) (o : Operation) (ops : List Operation) (e : ApplyError),
      applyOperation v o = .error e →
      applyPatch v (o :: ops) = ((applyPatch v ops).1, some e :: (applyPatch v ops).2)) := by
  constructor
  · simp [UNDO, h]
  · intro v o ops e he
    simp [applyPatch, he]

theorem C3_amended_witness :
    UNDO ⟨.obj [], [nopeCmd], []⟩ =
      ⟨(applyPatch (JValue.obj []) nopeCmd.undoOperation).1, [], [] ++ [nopeCmd]⟩ :=
  (C3_amended_silent_skip ⟨.obj [], [nopeCmd], []⟩ [] nopeCmd rfl).1


/-- C1 (amended): the round trip holds for every state and recipe result that
are both objects (or both arrays) — in this embedding objects are represented
canonically with strictly sorted keys — all of whose object keys, at every
depth, contain neither `/` nor `~`.  Applying the recorded forward script to
the state yields the recipe's result, and applying the recorded inverse
script (in its recorded order) to the result restores the original state. -/
theorem C1_roundtrip_amended {P : Type} (recipe : JValue → P → Except String JValue)
    (base modified : JValue) (payload : P) (cmd : Command)
    (hrec : recipe base payload = .ok modified)
    (hcmd : recordOperations recipe base payload = .ok cmd)
    (hcanb : canonB base = true) (hcanm : canonB modified = true)
    (hclb : cleanB base = true) (hclm : cleanB modified = true)
    (hshape : containerPair base modified = true) :
    (applyPatch base cmd.doOperation).1 = modified ∧
    (applyPatch modified cmd.undoOperation).1 = base := by
  unfold recordOperations at hcmd
  rw [hrec] at hcmd
  simp only [Except.map, Except.ok.injEq] at hcmd
  subst hcmd
  have hpaths : ∀ pt ∈ (diffV [] base modified).1 ++ (diffV [] base modified).2,
      cleanSegsB pt.path = true ∧ pt.path ≠ [] := by
    intro pt hpt
    obtain ⟨q, hq, hclean, hne⟩ := diff_paths_main base modified [] pt hpt
    rw [List.nil_append] at hq
    rw [hq]
    exact ⟨hclean hclb hclm, hne hshape⟩
  constructor
  · have hdo : applyPatchesS base (diffV [] base modified).1 = some modified :=
      diff_do_main base modified hcanb hcanm [] id ctx_id
    have hsim := applyPatch_sim (diffV [] base modified).1 base modified hdo
      fun pt hpt => hpaths pt (List.mem_append.mpr (Or.inl hpt))
    show (applyPatch base ((diffV [] base modified).1.map patchToOperation)).1 = modified
    rw [hsim]
  · have hundo : applyPatchesS modified (diffV [] base modified).2 = some base :=
      diff_undo_main base modified hcanb hcanm [] id ctx_id
    have hsim := applyPatch_sim (diffV [] base modified).2 modified base hundo
      fun pt hpt => hpaths pt (List.mem_append.mpr (Or.inr hpt))
    show (applyPatch modified ((diffV [] base modified).2.map patchToOperation)).1 = base
    rw [hsim]

theorem C1_witness :
    (applyPatch itemsAB appendCmd.doOperation).1 = itemsABC ∧
    (applyPatch itemsABC appendCmd.undoOperation).1 = itemsAB :=
  C1_roundtrip_amended appendC itemsAB itemsABC () appendCmd rfl
    (by
      simp [recordOperations, appendC, itemsAB, itemsABC, appendCmd, Except.map,
        jeq, jeqList, jeqFields, diffV, diffList, diffObj, addsFrom, remsDesc,
        patchToOperation, pathToString, joinSlash, segStr, renderNat, natChars, digitChar,
        POp.toStr])
    (by simp [canonB, canonItems, canonFields, chainSortedB, itemsAB])
    (by simp [canonB, canonItems, canonFields, chainSortedB, itemsABC])
    (by simp [cleanB, cleanItems, cleanFields, itemsAB]; decide)
    (by simp [cleanB, cleanItems, cleanFields, itemsABC]; decide)
    rfl

/-- C1 counterexample: the claim fails as stated, at two concrete inputs.
With the state `{"a/b": 0}` and a recipe replacing the value by `1`, the
recorded forward operation's path is the unescaped string `/a/b`, which the
pointer parser reads as key `a` then key `b`; the operation therefore fails
and applying `doOperations` leaves the state unchanged instead of yielding
the recipe's result.  With the scalar state `0` and a recipe producing `1`,
the recorded root operation's path `/` denotes the empty key rather than the
document root, and again nothing is applied. -/
theorem C1_counterexample :
    (recordOperations (fun _ (_ : Unit) => Except.ok (.obj [("a/b", .num 1)]))
        (.obj [("a/b", .num 0)]) () =
      .ok ⟨[⟨"replace", "/a/b", some (.num 1), none⟩],
           [⟨"replace", "/a/b", some (.num 0), none⟩]⟩ ∧
      (applyPatch (.obj [("a/b", .num 0)])
          [⟨"replace", "/a/b", some (.num 1), none⟩]).1 = .obj [("a/b", .num 0)] ∧
      JValue.obj [("a/b", .num 0)] ≠ .obj [("a/b", .num 1)]) ∧
    (recordOperations (fun _ (_ : Unit) => Except.ok (.num 1)) (.num 0) () =
      .ok ⟨[⟨"replace", "/", some (.num 1), none⟩],
           [⟨"replace", "/", some (.num 0), none⟩]⟩ ∧
      (applyPatch (.num 0) [⟨"replace", "/", some (.num 1), none⟩]).1 = .num 0 ∧
      JValue.num 0 ≠ .num 1) := by
  refine ⟨⟨?_, ?_, by simp⟩, ⟨?_, ?_, by simp⟩⟩ <;>
    simp [recordOperations, Except.map,
      jeq, jeqList, jeqFields, diffV, diffList, diffObj, addsFrom, remsDesc,
      patchToOperation, pathToString, joinSlash, segStr, renderNat, natChars, digitChar,
      POp.toStr, applyPatch, applyOperation, parsePointer, splitSlash, unescapeTok,
      replTilde0, replTilde1, parseNatTok, isDigitC, modToks, getToks, getTok, getKey,
      setKey, removeKey, addChildT, removeChildT, insAt, removeAtL, ofOpt]

end Vox
